import Mathlib

set_option maxHeartbeats 1000000
set_option maxRecDepth 4096

/-!
Verification of the WordPress-style shortcode engine (src/index.js).

The JavaScript source is shallowly embedded: strings become `List Char` /
`String`, the compiled shortcode `RegExp` becomes a deterministic matcher
(the pattern's backtracking is fully determined except for the optional
leading escape bracket, which is tried greedily first, exactly as the JS
engine does), JS objects with insertion-ordered string keys become ordered
association lists, and the `_.memoize` cache of `Shortcode.attrs` together
with the aliasing of its cached objects becomes an explicit heap.
-/

namespace WPSC

/-- JS regex `\w`: ASCII word characters. -/
def isWordChar (c : Char) : Bool :=
  ('a' ≤ c && c ≤ 'z') || ('A' ≤ c && c ≤ 'Z') || ('0' ≤ c && c ≤ '9') || c == '_'

/-- JS regex `\s`: whitespace characters (ECMAScript WhiteSpace and
LineTerminator code points). -/
def isJsSpace (c : Char) : Bool :=
  c == ' ' || c == '\t' || c == '\n' || c == '\x0b' || c == '\x0c' || c == '\r' ||
  c == ' ' || c == ' ' || (' ' ≤ c && c ≤ ' ') ||
  c == ' ' || c == ' ' || c == ' ' || c == ' ' ||
  c == '　' || c == '﻿'

/-- ASCII fragment of JS `String.prototype.toLowerCase`, applied per char. -/
def jsLowerChar (c : Char) : Char :=
  if 'A' ≤ c && c ≤ 'Z' then Char.ofNat (c.toNat + 32) else c

/-- `toLowerCase` on a whole string (ASCII fragment). -/
def jsLowerStr (s : String) : String :=
  String.mk (s.data.map jsLowerChar)

/-- JS object property assignment `m[k] = v` on an insertion-ordered map:
an existing key keeps its position and is overwritten, a new key is
appended. -/
def objSet (m : List (String × String)) (k v : String) : List (String × String) :=
  if m.any (fun p => p.1 == k) then
    m.map (fun p => if p.1 == k then (k, v) else p)
  else m ++ [(k, v)]

/-- JS array index assignment `l[n] = v` (holes modelled as `""`). -/
def listSet (l : List String) (n : Nat) (v : String) : List String :=
  if n < l.length then l.set n v
  else l ++ List.replicate (n - l.length) "" ++ [v]

/-! ## The attribute parser (`Shortcode.attrs`, src/index.js lines 156-199)

The parser runs the global regex
`(\w+)\s*=\s*"([^"]*)"(?:\s|$)|(\w+)\s*=\s*'([^']*)'(?:\s|$)|(\w+)\s*=\s*([^\s'"]+)(?:\s|$)|"([^"]*)"(?:\s|$)|(\S+)(?:\s|$)`
over the (space-normalized) text.  Each alternative's backtracking is
forced (every star is a maximal run whose shorter splits provably fail),
so each is embedded as a deterministic token recognizer; the engine tries
the alternatives in order at each position and advances one character on
failure. -/

/-- The trailing `(?:\s|$)` of every alternative: succeeds at end of input
or by consuming one whitespace character. -/
def sepEnd : List Char → Option (List Char)
  | [] => some []
  | c :: r => if isJsSpace c then some r else none

/-- Characters allowed in an unquoted named value: `[^\s'"]`. -/
def isUqChar (c : Char) : Bool :=
  !(isJsSpace c) && c != '\'' && c != '"'

/-- Alternative 1, `(\w+)\s*=\s*"([^"]*)"(?:\s|$)`. -/
def altNamedDq (s : List Char) : Option ((List Char × List Char) × List Char) :=
  let w := s.takeWhile isWordChar
  if w.isEmpty then none else
  match (s.dropWhile isWordChar).dropWhile isJsSpace with
  | [] => none
  | c1 :: r2 =>
    if c1 == '=' then
      match r2.dropWhile isJsSpace with
      | [] => none
      | c2 :: r4 =>
        if c2 == '"' then
          let v := r4.takeWhile (fun c => c != '"')
          match r4.dropWhile (fun c => c != '"') with
          | [] => none
          | c3 :: r5 => if c3 == '"' then (sepEnd r5).map (fun rest => ((w, v), rest)) else none
        else none
    else none

/-- Alternative 2, `(\w+)\s*=\s*'([^']*)'(?:\s|$)`. -/
def altNamedSq (s : List Char) : Option ((List Char × List Char) × List Char) :=
  let w := s.takeWhile isWordChar
  if w.isEmpty then none else
  match (s.dropWhile isWordChar).dropWhile isJsSpace with
  | [] => none
  | c1 :: r2 =>
    if c1 == '=' then
      match r2.dropWhile isJsSpace with
      | [] => none
      | c2 :: r4 =>
        if c2 == '\'' then
          let v := r4.takeWhile (fun c => c != '\'')
          match r4.dropWhile (fun c => c != '\'') with
          | [] => none
          | c3 :: r5 => if c3 == '\'' then (sepEnd r5).map (fun rest => ((w, v), rest)) else none
        else none
    else none

/-- Alternative 3, `(\w+)\s*=\s*([^\s'"]+)(?:\s|$)`. -/
def altNamedUq (s : List Char) : Option ((List Char × List Char) × List Char) :=
  let w := s.takeWhile isWordChar
  if w.isEmpty then none else
  match (s.dropWhile isWordChar).dropWhile isJsSpace with
  | [] => none
  | c1 :: r2 =>
    if c1 == '=' then
      let r3 := r2.dropWhile isJsSpace
      let v := r3.takeWhile isUqChar
      if v.isEmpty then none else
      (sepEnd (r3.dropWhile isUqChar)).map (fun rest => ((w, v), rest))
    else none

/-- Alternative 4, `"([^"]*)"(?:\s|$)`. -/
def altNumDq (s : List Char) : Option (List Char × List Char) :=
  match s with
  | [] => none
  | c0 :: r1 =>
    if c0 == '"' then
      let v := r1.takeWhile (fun c => c != '"')
      match r1.dropWhile (fun c => c != '"') with
      | [] => none
      | c1 :: r2 => if c1 == '"' then (sepEnd r2).map (fun rest => (v, rest)) else none
    else none

/-- Alternative 5, `(\S+)(?:\s|$)`. -/
def altNumUq (s : List Char) : Option (List Char × List Char) :=
  let v := s.takeWhile (fun c => !(isJsSpace c))
  if v.isEmpty then none else
  (sepEnd (s.dropWhile (fun c => !(isJsSpace c)))).map (fun rest => (v, rest))

/-- Which alternative matched, with its capture groups. -/
inductive AttrAction where
  | namedDq (k v : List Char)
  | namedSq (k v : List Char)
  | namedUq (k v : List Char)
  | numDq (v : List Char)
  | numUq (v : List Char)
deriving Repr, DecidableEq

/-- One attempt of the attribute regex at a fixed position: the five
alternatives in order. -/
def altsAt (s : List Char) : Option (AttrAction × List Char) :=
  match altNamedDq s with
  | some ((k, v), r) => some (.namedDq k v, r)
  | none =>
  match altNamedSq s with
  | some ((k, v), r) => some (.namedSq k v, r)
  | none =>
  match altNamedUq s with
  | some ((k, v), r) => some (.namedUq k v, r)
  | none =>
  match altNumDq s with
  | some (v, r) => some (.numDq v, r)
  | none =>
  match altNumUq s with
  | some (v, r) => some (.numUq v, r)
  | none => none

/-- The global scan loop `while ((match = pattern.exec(text)))`: at each
position try the alternatives, on failure slide one character.  Every
successful alternative consumes at least one character, so fuel
`length + 1` always suffices. -/
def scanActionsF : Nat → List Char → List AttrAction
  | 0, _ => []
  | _, [] => []
  | fuel + 1, s@(_ :: t) =>
    match altsAt s with
    | some (a, rest) => a :: scanActionsF fuel rest
    | none => scanActionsF fuel t

/-- Parsed attributes: `named` is an insertion-ordered string map,
`numeric` an ordered list. -/
structure Attrs where
  named : List (String × String)
  numeric : List String
deriving Repr, DecidableEq

/-- The body of the `while` loop: the truthiness-guarded group dispatch
(`if (match[1]) ... else if (match[7]) numeric.push(match[7]) ...`).
Named keys are lower-cased; a falsy (empty) quoted numeric is dropped. -/
def applyAction (acc : Attrs) : AttrAction → Attrs
  | .namedDq k v =>
    if k.isEmpty then acc
    else { acc with named := objSet acc.named (jsLowerStr (String.mk k)) (String.mk v) }
  | .namedSq k v =>
    if k.isEmpty then acc
    else { acc with named := objSet acc.named (jsLowerStr (String.mk k)) (String.mk v) }
  | .namedUq k v =>
    if k.isEmpty then acc
    else { acc with named := objSet acc.named (jsLowerStr (String.mk k)) (String.mk v) }
  | .numDq v =>
    if v.isEmpty then acc else { acc with numeric := acc.numeric ++ [String.mk v] }
  | .numUq v =>
    if v.isEmpty then acc else { acc with numeric := acc.numeric ++ [String.mk v] }

/-- The pre-scan normalization `text.replace(/[ ​]/g, ' ')`. -/
def normSpaces (s : List Char) : List Char :=
  s.map (fun c => if c == ' ' || c == '​' then ' ' else c)

/-- Embedding of `Shortcode.attrs` (the pure attribute parser; the spec
calls it `parseAttrs`).  The memoization wrapper is modelled separately
(`attrsMemo` below). -/
def parseAttrs (text : String) : Attrs :=
  let t := normSpaces text.data
  (scanActionsF (t.length + 1) t).foldl applyAction ⟨[], []⟩

/-! ## Tag Entities (`Shortcode` objects, src/index.js lines 246-344) -/

/-- A JS value that can appear as a property of an `attrs` option object. -/
inductive FieldVal where
  | fstr (s : String)
  | fmap (m : List (String × String))
  | flist (l : List String)
deriving Repr, DecidableEq

/-- JS string coercion of such a value (used when a non-string lands in the
named bucket via `set`). -/
def FieldVal.toStr : FieldVal → String
  | .fstr s => s
  | .fmap _ => "[object Object]"
  | .flist l => String.intercalate "," l

/-- The `attrs` option accepted by the `Shortcode` constructor: absent, a
raw attribute string, or an object (with insertion-ordered keys). -/
inductive AttrsOpt where
  | undef
  | rawStr (s : String)
  | obj (fields : List (String × FieldVal))
deriving Repr, DecidableEq

/-- The `options` argument of the `Shortcode` constructor. -/
structure SCOptions where
  tag : String
  attrs : AttrsOpt
  type : Option String
  content : Option String
deriving Repr, DecidableEq

/-- A constructed Shortcode (Tag Entity). -/
structure Shortcode where
  tag : String
  attrs : Attrs
  type : Option String
  content : Option String
deriving Repr, DecidableEq

/-- An argument to `get`/`set`: `_.isNumber(attr)` dispatches on the JS
runtime type, so the key is either a number or a string. -/
inductive AttrKey where
  | num (n : Nat)
  | str (s : String)
deriving Repr, DecidableEq

/-- Embedding of `Shortcode.prototype.set` (src/index.js lines 301-304):
numbers go to the numeric bucket, everything else to the named bucket,
with no key normalization. -/
def Shortcode.set (t : Shortcode) (k : AttrKey) (v : String) : Shortcode :=
  match k with
  | .num n => { t with attrs := { t.attrs with numeric := listSet t.attrs.numeric n v } }
  | .str s => { t with attrs := { t.attrs with named := objSet t.attrs.named s v } }

/-- Embedding of `Shortcode.prototype.get`. -/
def Shortcode.get (t : Shortcode) (k : AttrKey) : Option String :=
  match k with
  | .num n => t.attrs.numeric.get? n
  | .str s => (t.attrs.named.find? (fun p => p.1 == s)).map Prod.snd

/-- The `{named, numeric}` as-is branch of the constructor: the object is
adopted unchanged. -/
def objAttrsAsIs (fields : List (String × FieldVal)) : Attrs :=
  { named := match fields.find? (fun p => p.1 == "named") with
             | some (_, .fmap m) => m
             | _ => []
  , numeric := match fields.find? (fun p => p.1 == "numeric") with
             | some (_, .flist l) => l
             | _ => [] }

/-- Embedding of the `Shortcode` constructor (src/index.js lines 246-275):
a falsy `attrs` leaves the empty structure; a string is parsed; an object
whose key list is exactly `['named', 'numeric']` (lodash `_.keys` returns
keys in insertion order) is adopted as-is; any other object is treated as
a flat map and routed entry-by-entry through `set`. -/
def Shortcode.ofOptions (o : SCOptions) : Shortcode :=
  let base : Shortcode :=
    { tag := o.tag, attrs := ⟨[], []⟩, type := o.type, content := o.content }
  match o.attrs with
  | .undef => base
  | .rawStr s => if s == "" then base else { base with attrs := parseAttrs s }
  | .obj fields =>
    if fields.map Prod.fst == ["named", "numeric"] then
      { base with attrs := objAttrsAsIs fields }
    else
      fields.foldl (fun t p => t.set (.str p.1) p.2.toStr) base

/-- Serialization of one numeric value: quoted iff it contains `\s`
whitespace (src/index.js lines 314-320). -/
def serNumericTok (v : String) : String :=
  if v.data.any isJsSpace then " \"" ++ v ++ "\"" else " " ++ v

/-- Serialization of one named entry: ` name="value"` (src/index.js
lines 322-324). -/
def serNamedTok (p : String × String) : String :=
  " " ++ p.1 ++ "=\"" ++ p.2 ++ "\""

/-- Embedding of `Shortcode.prototype.string` (the serializer,
src/index.js lines 311-343). -/
def Shortcode.string (t : Shortcode) : String :=
  let text := "[" ++ t.tag
  let text := t.attrs.numeric.foldl (fun acc v => acc ++ serNumericTok v) text
  let text := t.attrs.named.foldl (fun acc p => acc ++ serNamedTok p) text
  if t.type == some "single" then text ++ "]"
  else if t.type == some "self-closing" then text ++ " /]"
  else
    let text := text ++ "]"
    let text := match t.content with
                | some c => if c == "" then text else text ++ c
                | none => text
    text ++ "[/" ++ t.tag ++ "]"

/-! ## The shortcode regexp (src/index.js lines 136-138) and its matcher

The compiled pattern is
`\[(\[?)(tag)(?![\w-])([^\]\/]*(?:\/(?!\])[^\]\/]*)*?)(?:(\/)\]|\](?:([^\[]*(?:\[(?!\/\2\])[^\[]*)*)(\[\/\2\]))?)(\]?)`.
For a literal tag its backtracking is deterministic: every starred chunk
is a maximal run whose shorter splits fail against the following literal,
the lazy attribute loop stops exactly at `]` or `/]`, and the greedy
content loop stops exactly at the first occurrence of `[/tag]`.  The one
genuine choice point is the optional leading `[` (group 1), which the JS
engine tries greedily first and backtracks on failure of the whole rest.
The matcher below implements exactly this strategy. -/

/-- Characters an attribute-region chunk `[^\]\/]*` may contain. -/
def notAttrStop (c : Char) : Bool := c != ']' && c != '/'

/-- The attribute region followed by the alternation `(?:(\/)\]|\]...)`:
returns the attribute text (group 3), whether the self-closing branch
(group 4) was taken, and the rest of the input after the consumed `]` or
`/]`.  A `/` immediately before `]` ends the match as self-closing (the
lazy loop's continuation is tried first); any other `/` is absorbed into
the attribute text. -/
def attrsScanF : Nat → List Char → Option (List Char × Bool × List Char)
  | 0, _ => none
  | fuel + 1, s =>
    let chunk := s.takeWhile notAttrStop
    match s.dropWhile notAttrStop with
    | [] => none
    | c :: rest =>
      if c == ']' then some (chunk, false, rest)
      else if c == '/' then
        match rest with
        | [] => none
        | d :: rest2 =>
          if d == ']' then some (chunk, true, rest2)
          else (attrsScanF fuel (d :: rest2)).map
            (fun p => (chunk ++ '/' :: p.1, p.2.1, p.2.2))
      else none

/-- The literal closing sequence `[/tag]`. -/
def closeSeq (tag : List Char) : List Char := '[' :: '/' :: (tag ++ [']'])

/-- The optional content-and-close part `(?:([^\[]*(?:\[(?!\/tag\])[^\[]*)*)(\[\/tag\]))?`:
consumes up to the first occurrence of `[/tag]` (group 5) and the closing
sequence itself (group 6); fails when no closing sequence occurs. -/
def contentScan (tag : List Char) : List Char → Option (List Char × List Char)
  | [] => none
  | c :: t =>
    if (closeSeq tag).isPrefixOf (c :: t) then
      some ([], (c :: t).drop (closeSeq tag).length)
    else (contentScan tag t).map (fun p => (c :: p.1, p.2))

/-- Groups 3-7 of one successful match attempt, plus the unconsumed rest. -/
structure BodyRes where
  g3 : List Char
  g4 : Bool
  g5 : Option (List Char)
  g6 : Bool
  g7 : Bool
  rest : List Char
deriving Repr, DecidableEq

/-- The trailing optional escape bracket `(\]?)` (group 7). -/
def g7Scan (s : List Char) : Bool × List Char :=
  match s with
  | [] => (false, [])
  | c :: r => if c == ']' then (true, r) else (false, c :: r)

/-- The part of a match attempt after the tag name and its negative
lookahead. -/
def tryAfterTag (tag r0 : List Char) : Option BodyRes :=
  match attrsScanF (r0.length + 1) r0 with
  | none => none
  | some (attrText, true, r1) =>
    let g7p := g7Scan r1
    some { g3 := attrText, g4 := true, g5 := none, g6 := false,
           g7 := g7p.1, rest := g7p.2 }
  | some (attrText, false, r1) =>
    match contentScan tag r1 with
    | some (cont, r2) =>
      let g7p := g7Scan r2
      some { g3 := attrText, g4 := false, g5 := some cont, g6 := true,
             g7 := g7p.1, rest := g7p.2 }
    | none =>
      let g7p := g7Scan r1
      some { g3 := attrText, g4 := false, g5 := none, g6 := false,
             g7 := g7p.1, rest := g7p.2 }

/-- The part of a match attempt starting at the tag name: the literal tag
(group 2) followed by the negative lookahead `(?![\w-])`. -/
def tryBody (tag s : List Char) : Option BodyRes :=
  if tag.isPrefixOf s then
    let r0 := s.drop tag.length
    match r0.head? with
    | some c => if isWordChar c || c == '-' then none else tryAfterTag tag r0
    | none => tryAfterTag tag r0
  else none

/-- One whole match attempt with group 1 and the consumed length. -/
structure CoreRes where
  g1 : Bool
  body : BodyRes
  len : Nat
deriving Repr, DecidableEq

/-- A match attempt at a fixed position: the opening `\[`, then the greedy
optional escape `(\[?)` (tried with the extra bracket first, backtracking
to without it if the whole rest fails). -/
def attemptAt (tag s : List Char) : Option CoreRes :=
  match s with
  | [] => none
  | c0 :: s1 =>
    if c0 == '[' then
      if s1.head? == some '[' then
        match tryBody tag s1.tail with
        | some b => some { g1 := true, body := b, len := (c0 :: s1).length - b.rest.length }
        | none =>
          match tryBody tag s1 with
          | some b => some { g1 := false, body := b, len := (c0 :: s1).length - b.rest.length }
          | none => none
      else
        match tryBody tag s1 with
        | some b => some { g1 := false, body := b, len := (c0 :: s1).length - b.rest.length }
        | none => none
    else none

/-- The engine's position loop: attempt at each successive position. -/
def scanFrom (tag : List Char) : List Char → Option (Nat × CoreRes)
  | [] => none
  | s@(_ :: t) =>
    match attemptAt tag s with
    | some c => some (0, c)
    | none => (scanFrom tag t).map (fun p => (p.1 + 1, p.2))

/-- A regexp match as JS reports it: `index`, `match[0]`, the capture
groups, and the regexp's advanced `lastIndex`. -/
structure SCMatch where
  index : Nat
  matched : List Char
  g1 : Bool
  g2 : List Char
  g3 : List Char
  g4 : Bool
  g5 : Option (List Char)
  g6 : Bool
  g7 : Bool
  lastIndex : Nat
deriving Repr, DecidableEq

/-- One `exec` of the compiled shortcode regexp on `text`, searching from
position `i`. -/
def regexpExec (tag text : List Char) (i : Nat) : Option SCMatch :=
  (scanFrom tag (text.drop i)).map (fun p =>
    let start := i + p.1
    { index := start
    , matched := (text.drop start).take p.2.len
    , g1 := p.2.g1, g2 := tag, g3 := p.2.body.g3, g4 := p.2.body.g4
    , g5 := p.2.body.g5, g6 := p.2.body.g6, g7 := p.2.body.g7
    , lastIndex := start + p.2.len })

/-- Embedding of `Shortcode.fromMatch` (src/index.js lines 211-228). -/
def Shortcode.fromMatch (m : SCMatch) : Shortcode :=
  Shortcode.ofOptions
    { tag := String.mk m.g2
    , attrs := .rawStr (String.mk m.g3)
    , type := some (if m.g4 then "self-closing" else if m.g6 then "closed" else "single")
    , content := m.g5.map String.mk }

/-- The result object of `Shortcode.next`. -/
structure NextResult where
  index : Nat
  content : String
  shortcode : Shortcode
deriving Repr, DecidableEq

/-- The recursion of `Shortcode.next` (src/index.js lines 28-64): a fully
escaped match (`match[1] === '[' && match[7] === ']'`) is skipped by
retrying from the regexp's `lastIndex`; otherwise a lone leading `[` is
stripped with the index advanced, and a lone trailing `]` is stripped.
Every match consumes at least one character, so fuel `length + 1`
suffices. -/
def nextF : Nat → List Char → List Char → Nat → Option NextResult
  | 0, _, _, _ => none
  | fuel + 1, tag, text, i =>
    match regexpExec tag text i with
    | none => none
    | some m =>
      if m.g1 && m.g7 then nextF fuel tag text m.lastIndex
      else
        let content := if m.g1 then m.matched.drop 1 else m.matched
        let content := if m.g7 then content.dropLast else content
        some { index := if m.g1 then m.index + 1 else m.index
             , content := String.mk content
             , shortcode := Shortcode.fromMatch m }

/-- Embedding of `Shortcode.next(tag, text, index)`. -/
def Shortcode.next (tag text : String) (i : Nat) : Option NextResult :=
  nextF (text.length + 1) tag.data text.data i

/-! ## The shared global regexp's scan state (for `Shortcode.regexp` memoization)

`Shortcode.regexp` memoizes one `RegExp` object per tag, so its mutable
`lastIndex` is shared by all callers.  `next` overwrites it
(`re.lastIndex = index || 0`) before every `exec`. -/

/-- `exec` on the shared global regexp: reads the current `lastIndex` and
writes the new one (JS resets it to 0 when no match is found). -/
def regexpExecG (tag text : List Char) (st : Nat) : Option SCMatch × Nat :=
  match regexpExec tag text st with
  | some m => (some m, m.lastIndex)
  | none => (none, 0)

/-- `Shortcode.next` threaded through the shared regexp state: the state
argument is overwritten by `re.lastIndex = index || 0` before each
`exec`; escaped matches retry from the regexp's advanced `lastIndex`. -/
def nextStF : Nat → List Char → List Char → Nat → Nat → Option NextResult × Nat
  | 0, _, _, _, st => (none, st)
  | fuel + 1, tag, text, i, _st =>
    match regexpExecG tag text i with
    | (none, st2) => (none, st2)
    | (some m, st2) =>
      if m.g1 && m.g7 then nextStF fuel tag text st2 st2
      else
        let content := if m.g1 then m.matched.drop 1 else m.matched
        let content := if m.g7 then content.dropLast else content
        (some { index := if m.g1 then m.index + 1 else m.index
              , content := String.mk content
              , shortcode := Shortcode.fromMatch m }, st2)

/-- `Shortcode.next` on the shared, possibly dirty, memoized regexp. -/
def Shortcode.nextStateful (tag text : String) (i : Nat) (st : Nat) :
    Option NextResult × Nat :=
  nextStF (text.length + 1) tag.data text.data i st

/-! ## The substitution engine (`Shortcode.replace`, src/index.js lines 83-99)

Modelled from the spec: the `async-replace` dependency is not under src/;
per the spec (sections 4.5, 5) it scans the whole text for successive
matches of the global regexp and, for each match in left-to-right order,
obtains a replacement from the callback - awaiting an asynchronous result
before the next occurrence is processed - and splices replacements and the
verbatim unmatched spans together.  The callback in src/index.js returns
the escaped match text itself synchronously and otherwise hands `done` to
the caller-supplied replacer, whose eventual value is the replacement (the
`left + result + right` computation on line 96 is dead: that local is
neither returned nor passed to `done`). -/

/-- All successive matches of the global regexp (JS would bump a
zero-length match by one; shortcode matches are never empty). -/
def scMatchesF : Nat → List Char → List Char → Nat → List SCMatch
  | 0, _, _, _ => []
  | fuel + 1, tag, text, i =>
    match regexpExec tag text i with
    | none => []
    | some m =>
      m :: scMatchesF fuel tag text
        (if m.lastIndex == m.index then m.lastIndex + 1 else m.lastIndex)

/-- The match list `Shortcode.replace` iterates over. -/
def Shortcode.replaceMatches (tag text : String) : List SCMatch :=
  scMatchesF (text.length + 1) tag.data text.data 0

/-- The callback `Shortcode.replace` hands to async-replace: a fully
escaped match is returned unchanged; otherwise the replacer produces the
replacement from the parsed shortcode. -/
def replaceCallback (replacer : Shortcode → String) (m : SCMatch) : String :=
  if m.g1 && m.g7 then String.mk m.matched
  else replacer (Shortcode.fromMatch m)

/-- Splicing replacements and verbatim unmatched spans, cursor-based. -/
def spliceAll (text : List Char) (repl : SCMatch → String) :
    List SCMatch → Nat → List Char
  | [], pos => text.drop pos
  | m :: ms, pos =>
    (text.drop pos).take (m.index - pos) ++ (repl m).data ++
      spliceAll text repl ms m.lastIndex

/-- Embedding of `Shortcode.replace(tag, text, replacer)` composed with
the modelled async-replace (final resolved string). -/
def Shortcode.replace (tag text : String) (replacer : Shortcode → String) : String :=
  String.mk (spliceAll text.data (replaceCallback replacer)
    (Shortcode.replaceMatches tag text) 0)

/-- Result of a timed run: the final text and, per replacer call, the
tick at which the call started and the tick at which its asynchronous
result resolved. -/
structure TimedRun where
  output : String
  callSpans : List (Nat × Nat)
deriving Repr, DecidableEq

/-- Modelled from the spec: the sequential-await substitution pass over an
asynchronous replacer.  The `k`-th replacer call receives the parsed
shortcode and resolves after an arbitrary delay; the engine only starts
the next occurrence once the current result has resolved, splicing
results at their source positions. -/
def runTimedF (text : List Char) (f : Nat → Shortcode → Nat × String) :
    List SCMatch → Nat → Nat → Nat → TimedRun
  | [], pos, _, _ => { output := String.mk (text.drop pos), callSpans := [] }
  | m :: ms, pos, callIdx, clock =>
    let span := (text.drop pos).take (m.index - pos)
    if m.g1 && m.g7 then
      let r := runTimedF text f ms m.lastIndex callIdx clock
      { output := String.mk span ++ String.mk m.matched ++ r.output
      , callSpans := r.callSpans }
    else
      let dv := f callIdx (Shortcode.fromMatch m)
      let r := runTimedF text f ms m.lastIndex (callIdx + 1) (clock + dv.1)
      { output := String.mk span ++ dv.2 ++ r.output
      , callSpans := (clock, clock + dv.1) :: r.callSpans }

/-- `Shortcode.replace` under the timed asynchronous-replacer model. -/
def Shortcode.replaceTimed (tag text : String) (f : Nat → Shortcode → Nat × String) :
    TimedRun :=
  runTimedF text.data f (Shortcode.replaceMatches tag text) 0 0 0

/-- The spec-side in-order assembly: replacements spliced at their source
positions in left-to-right match order, call indices counting only
non-escaped occurrences. -/
def spliceIdx (text : List Char) (vals : Nat → Shortcode → String) :
    List SCMatch → Nat → Nat → List Char
  | [], pos, _ => text.drop pos
  | m :: ms, pos, k =>
    let span := (text.drop pos).take (m.index - pos)
    if m.g1 && m.g7 then
      span ++ m.matched ++ spliceIdx text vals ms m.lastIndex k
    else
      span ++ (vals k (Shortcode.fromMatch m)).data ++
        spliceIdx text vals ms m.lastIndex (k + 1)

/-! ## The `_.memoize` cache of `Shortcode.attrs` and its aliasing

`Shortcode.attrs` is memoized by input text; the constructor stores the
cached object itself in the new entity (line 263: `this.attrs =
Shortcode.attrs(attrs)`), and `set` mutates that object in place, so the
cache and all entities built from the same text alias one heap object. -/

/-- The process-wide state: the memo cache maps input text to a heap
reference, the heap holds the attribute objects. -/
structure MemoSt where
  cache : List (String × Nat)
  heap : List Attrs
deriving Repr, DecidableEq

/-- Dereference a heap reference. -/
def MemoSt.readRef (st : MemoSt) (r : Nat) : Attrs :=
  st.heap.getD r ⟨[], []⟩

/-- `Shortcode.attrs(s)` under memoization: returns the shared reference,
computing and caching the parse on the first call for `s`. -/
def attrsMemo (s : String) (st : MemoSt) : Nat × MemoSt :=
  match st.cache.find? (fun p => p.1 == s) with
  | some p => (p.2, st)
  | none =>
    let r := st.heap.length
    (r, { cache := st.cache ++ [(s, r)], heap := st.heap ++ [parseAttrs s] })

/-- What a caller of `Shortcode.attrs(s)` observes: the value of the
returned shared object at call time. -/
def attrsCallValue (s : String) (st : MemoSt) : Attrs × MemoSt :=
  let rs := attrsMemo s st
  (rs.2.readRef rs.1, rs.2)

/-- Constructing an entity from raw attribute text stores the shared
cached reference in the entity (src/index.js line 263). -/
def ctorAttrsRef (s : String) (st : MemoSt) : Nat × MemoSt :=
  attrsMemo s st

/-- `entity.set(name, value)` on an entity holding reference `r`: mutates
the named bucket of the referenced attrs object in place (src/index.js
lines 301-304). -/
def setNamedAt (r : Nat) (k v : String) (st : MemoSt) : MemoSt :=
  let a := st.readRef r
  { st with heap := st.heap.set r { a with named := objSet a.named k v } }

/-! ## RegExp construction (`Shortcode.regexp`, src/index.js lines 136-138)

`new RegExp('\\[(\\[?)(' + tag + ')(?![\\w-])...')` succeeds or throws a
SyntaxError depending on whether the interpolated source is a well-formed
ECMAScript pattern.  Well-formedness is modelled by a one-pass automaton
over the pattern source tracking escapes, character classes, group
nesting and quantifier placement - the constructs the interpolated
pattern family uses. -/

/-- The pattern source `Shortcode.regexp` hands to `new RegExp` for a
given tag (src/index.js line 137). -/
def regexpSource (tag : String) : String :=
  "\\[(\\[?)(" ++ tag ++
    ")(?![\\w-])([^\\]\\/]*(?:\\/(?!\\])[^\\]\\/]*)*?)(?:(\\/)\\]|\\](?:([^\\[]*(?:\\[(?!\\/\\2\\])[^\\[]*)*)(\\[\\/\\2\\]))?)(\\]?)"

/-- Scanner mode: plain pattern, after a backslash, inside a character
class (possibly after its backslash), just after `(`, or after `(?`. -/
inductive PMode where
  | normal
  | esc
  | inClass
  | classEsc
  | openGroup
  | openQ
deriving Repr, DecidableEq

/-- Quantifier slot: no quantifier may follow, a quantifier may follow, or
only a lazy `?` may follow. -/
inductive QSt where
  | noQ
  | canQ
  | lazySlot
deriving Repr, DecidableEq

/-- Scanner state. -/
structure PSt where
  mode : PMode
  depth : Nat
  q : QSt
  bad : Bool
deriving Repr, DecidableEq

/-- One plain-mode pattern character. -/
def pStepNormal (st : PSt) (c : Char) : PSt :=
  if c == '\\' then { st with mode := .esc }
  else if c == '(' then { st with mode := .openGroup, depth := st.depth + 1, q := .noQ }
  else if c == ')' then
    match st.depth with
    | 0 => { st with bad := true }
    | d + 1 => { st with depth := d, q := .canQ }
  else if c == '[' then { st with mode := .inClass, q := .noQ }
  else if c == '*' || c == '+' then
    if st.q == .canQ then { st with q := .lazySlot } else { st with bad := true }
  else if c == '?' then
    match st.q with
    | .canQ => { st with q := .lazySlot }
    | .lazySlot => { st with q := .noQ }
    | .noQ => { st with bad := true }
  else if c == '|' then { st with q := .noQ }
  else { st with q := .canQ }

/-- The scanner's transition function. -/
def pStep (st : PSt) (c : Char) : PSt :=
  if st.bad then st else
  match st.mode with
  | .esc => { st with mode := .normal, q := .canQ }
  | .classEsc => { st with mode := .inClass }
  | .inClass =>
    if c == ']' then { st with mode := .normal, q := .canQ }
    else if c == '\\' then { st with mode := .classEsc }
    else st
  | .openGroup =>
    if c == '?' then { st with mode := .openQ }
    else pStepNormal { st with mode := .normal } c
  | .openQ =>
    if c == ':' || c == '=' || c == '!' then { st with mode := .normal }
    else { st with bad := true }
  | .normal => pStepNormal st c

/-- The scanner's initial state. -/
def pInit : PSt := { mode := .normal, depth := 0, q := .noQ, bad := false }

/-- Whether a pattern source is well-formed: the scan ends cleanly in
plain mode with all groups closed. -/
def patternOk (p : String) : Bool :=
  let st := p.data.foldl pStep pInit
  !st.bad && st.mode == PMode.normal && st.depth == 0

/-- Whether `Shortcode.regexp(tag)` produces a matcher rather than
throwing at `new RegExp` time. -/
def regexpCompiles (tag : String) : Bool :=
  patternOk (regexpSource tag)

/-! ## Well-formedness predicates used by the round-trip statement -/

/-- Occurrence of `pat` as a contiguous subsequence of a string. -/
def hasSeq (pat : List Char) : List Char → Bool
  | [] => pat.isEmpty
  | s@(_ :: t) => pat.isPrefixOf s || hasSeq pat t

/-- A tag-name character: word character or hyphen. -/
def wordHyChar (c : Char) : Bool := isWordChar c || c == '-'

/-- A well-formed tag name per the spec's data model: a non-empty
`[\w-]+` token. -/
def validTagName (s : String) : Bool :=
  !s.data.isEmpty && s.data.all wordHyChar

/-- No upper-case ASCII letter (the observable meaning of "lower-cased"
for the keys the engine produces). -/
def noUpperStr (s : String) : Bool :=
  s.data.all (fun c => !('A' ≤ c && c ≤ 'Z'))

/-- A named-attribute key that survives the parse→serialize round trip: a
non-empty word token already in lower case. -/
def validNamedKey (k : String) : Bool :=
  !k.data.isEmpty && k.data.all isWordChar && noUpperStr k

/-- A value character that survives the round trip: not a double quote,
not the attribute-region terminator `]`, and not one of the two
characters the attribute parser normalizes to plain spaces. -/
def cleanValChar (c : Char) : Bool :=
  c != '"' && c != ']' && c != ' ' && c != '​'

/-- A named value that survives the round trip. -/
def validNamedVal (v : String) : Bool := v.data.all cleanValChar

/-- A positional value that survives the round trip: non-empty, of clean
characters, not ending in `/` (which would turn the open tag
self-closing), and - when serialized unquoted, i.e. without whitespace -
free of `=` (which would re-parse as a named attribute). -/
def validNumericVal (v : String) : Bool :=
  !v.data.isEmpty && v.data.all cleanValChar &&
  v.data.getLast? != some '/' &&
  (v.data.any isJsSpace || v.data.all (fun c => c != '='))

/-! ## Token view of the attribute region (for the round-trip proof) -/

/-- One serialized attribute token. -/
inductive ATok where
  | num (v : String)
  | nam (k v : String)
deriving Repr, DecidableEq

/-- The token's body (its serialization without the leading space). -/
def ATok.body : ATok → List Char
  | .num v => if v.data.any isJsSpace then '"' :: (v.data ++ ['"']) else v.data
  | .nam k v => k.data ++ '=' :: '"' :: (v.data ++ ['"'])

/-- The token's serialization: a space, then the body. -/
def ATok.serc (t : ATok) : List Char := ' ' :: t.body

/-- Serialization of a token list. -/
def serToks (ts : List ATok) : List Char := (ts.map ATok.serc).flatten

/-- The token list an `Attrs` structure serializes to. -/
def attrToks (a : Attrs) : List ATok :=
  a.numeric.map ATok.num ++ a.named.map (fun p => ATok.nam p.1 p.2)

/-- The attribute-parser action a well-formed token scans back to. -/
def actionOf : ATok → AttrAction
  | .num v => if v.data.any isJsSpace then .numDq v.data else .numUq v.data
  | .nam k v => .namedDq k.data v.data

/-! ## Concrete inputs for the claim analyses -/

/-- A flat attribute map with an upper-case key. -/
def c4input : SCOptions :=
  { tag := "x", attrs := .obj [("A", .fstr "1")], type := none, content := none }

/-- An `attrs` object with exactly the keys `numeric` and `named`, in
that insertion order. -/
def c8input : SCOptions :=
  { tag := "x", attrs := .obj [("numeric", .flist []), ("named", .fmap [])],
    type := none, content := none }

/-- A Closed entity whose named value contains a quote and whitespace. -/
def c6input : Shortcode :=
  { tag := "x", attrs := ⟨[("a", "x \"y")], []⟩, type := some "closed",
    content := some "c" }

/-- A well-formed Closed entity exercising every round-trip clause:
a quoted and an unquoted positional value, a named entry, and content
containing a non-closing bracket. -/
def c6wit : Shortcode :=
  { tag := "x", attrs := ⟨[("a", "1")], ["two", "a b"]⟩, type := some "closed",
    content := some "hello [there" }

/-- Tails of serialized token lists: empty, or a space followed by a
non-space non-`=` character. -/
def GoodTail (rest : List Char) : Prop :=
  rest = [] ∨ ∃ c r2, rest = ' ' :: c :: r2 ∧ isJsSpace c = false ∧ (c == '=') = false

/-- Well-formedness of one attribute token for the round trip. -/
def ValidATok : ATok → Prop
  | .num v => validNumericVal v = true
  | .nam k v => validNamedKey k = true ∧ validNamedVal v = true

/-! # Theorems -/

/-- C7: `next("x", "[[x]]")` returns none - the fully escaped occurrence
is invisible - while `next("x", "[[x]")` returns a match whose single
leading bracket is stripped from the matched text as inert punctuation,
with the offset advanced by one (not treated as an escape). -/
theorem c7_escape_handling :
    Shortcode.next "x" "[[x]]" 0 = none ∧
    Shortcode.next "x" "[[x]" 0 = some
      { index := 1, content := "[x]"
      , shortcode := { tag := "x", attrs := ⟨[], []⟩, type := some "single",
                       content := none } } := by
  constructor <;> rfl

/-- C9: `parseAttrs('a="1" "two" 3')` yields the named map `{a: "1"}` and
the numeric list `["two", "3"]`, in appearance order. -/
theorem c9_named_numeric_split :
    parseAttrs "a=\"1\" \"two\" 3" = ⟨[("a", "1")], ["two", "3"]⟩ := by
  rfl

/-- C3 counterexample: the empty tag name does not fail fast - the
pattern `Shortcode.regexp('')` interpolates is well-formed, so `new
RegExp` succeeds and returns a (silently wrong) matcher. -/
theorem c3_cex : regexpCompiles "" = true := by rfl

/-- C4 counterexample: an entity built from the flat map `{A: '1'}`
(routed through `set`) keeps the upper-case key `A` in `attrs.named`. -/
theorem c4_cex :
    (Shortcode.ofOptions c4input).attrs.named = [("A", "1")] ∧
    noUpperStr "A" = false := by
  constructor <;> rfl

/-- C8 counterexample: an `attrs` object with exactly the keys `named`
and `numeric` but insertion order `numeric, named` is not accepted as-is:
it is routed through `set` as a flat map, landing both entries in the
named bucket. -/
theorem c8_cex :
    (Shortcode.ofOptions c8input).attrs ≠ ⟨[], []⟩ ∧
    (Shortcode.ofOptions c8input).attrs =
      ⟨[("numeric", ""), ("named", "[object Object]")], []⟩ := by
  constructor
  · decide
  · rfl

/-- C6 counterexample: `c6input` is Closed, its content `c` does not
contain `[/x]`, yet parsing its serialization and re-serializing yields a
different string: the quote inside the named value derails the attribute
parse. -/
theorem c6_cex :
    c6input.type = some "closed" ∧
    hasSeq (closeSeq c6input.tag.data) ((c6input.content.getD "").data) = false ∧
    c6input.string = "[x a=\"x \"y\"]c[/x]" ∧
    (Shortcode.next c6input.tag c6input.string 0).map (fun r => r.shortcode.string) =
      some "[x a=\"x y]c[/x]" ∧
    ("[x a=\"x y]c[/x]" : String) ≠ "[x a=\"x \"y\"]c[/x]" := by
  refine ⟨rfl, rfl, rfl, rfl, ?_⟩
  decide

/-- C1 counterexample: the substitution engine passes a fully escaped
occurrence through unchanged - with both double brackets, not with one
escape layer removed. -/
theorem c1_cex :
    Shortcode.replace "x" "[[x]]" (fun _ => "R") = "[[x]]" ∧
    ("[[x]]" : String) ≠ "[x]" := by
  refine ⟨rfl, ?_⟩
  decide

/-- C2 evidence: `Shortcode.attrs` is not observationally pure: a first
call on `a="1"` observes `{named: {a: "1"}}`, but after an entity
constructed from the same text mutates the shared cached object via
`set('b', '2')`, a second call on the very same text observes
`{named: {a: "1", b: "2"}}`. -/
theorem c2_memo_aliasing :
    (attrsCallValue "a=\"1\"" ⟨[], []⟩).1 = ⟨[("a", "1")], []⟩ ∧
    (let st1 := (attrsCallValue "a=\"1\"" ⟨[], []⟩).2
     let rs := ctorAttrsRef "a=\"1\"" st1
     let st3 := setNamedAt rs.1 "b" "2" rs.2
     (attrsCallValue "a=\"1\"" st3).1) = ⟨[("a", "1"), ("b", "2")], []⟩ ∧
    (⟨[("a", "1")], []⟩ : Attrs) ≠ ⟨[("a", "1"), ("b", "2")], []⟩ := by
  refine ⟨rfl, rfl, ?_⟩
  decide

/-- Helper: the stateful `next` ignores the regexp's prior `lastIndex`:
its result equals the pure embedding's. -/
theorem nextStF_fst (fuel : Nat) (tag text : List Char) :
    ∀ (i st : Nat), (nextStF fuel tag text i st).1 = nextF fuel tag text i := by
  induction fuel with
  | zero => intro i st; rfl
  | succ f ih =>
    intro i st
    simp only [nextStF, nextF, regexpExecG]
    cases h : regexpExec tag text i with
    | none => rfl
    | some m =>
      by_cases hm : (m.g1 && m.g7) = true
      · simp only [hm, if_true]
        exact ih m.lastIndex m.lastIndex
      · rw [Bool.not_eq_true] at hm
        simp [hm]

/-- C10: `next(tag, text, index)` is deterministic despite the
process-wide memoized matcher: its result does not depend on the shared
regexp's prior `lastIndex` state - `next` overwrites it from its `index`
argument before every `exec` - and the stateful run agrees with the pure
embedding of `next`. -/
theorem c10_next_deterministic (tag text : String) (i st st' : Nat) :
    (Shortcode.nextStateful tag text i st).1 =
      (Shortcode.nextStateful tag text i st').1 ∧
    (Shortcode.nextStateful tag text i st).1 = Shortcode.next tag text i := by
  unfold Shortcode.nextStateful Shortcode.next
  rw [nextStF_fst, nextStF_fst]
  exact ⟨rfl, rfl⟩

/-- Helper: splicing is unchanged when two callbacks agree on every
listed match. -/
theorem spliceAll_congr (text : List Char) (f g : SCMatch → String) :
    ∀ (ms : List SCMatch) (pos : Nat), (∀ m ∈ ms, f m = g m) →
      spliceAll text f ms pos = spliceAll text g ms pos := by
  intro ms
  induction ms with
  | nil => intro pos _; rfl
  | cons m ms ih =>
    intro pos h
    simp only [spliceAll]
    rw [h m (by simp), ih m.lastIndex (fun x hx => h x (by simp [hx]))]

/-- C1 (amended): when the substitution engine encounters a fully escaped
occurrence (both escape groups present), that occurrence appears in the
output as literal text unchanged - both double brackets retained, no
escape layer removed - and the replacer is never invoked for it: the
output depends only on the replacer's values at the non-escaped
occurrences, and the escaped occurrence's callback result is exactly its
matched text. -/
theorem c1_escaped_passthrough (tag text : String) (f g : Shortcode → String)
    (h : ∀ m ∈ Shortcode.replaceMatches tag text, (m.g1 && m.g7) = false →
      f (Shortcode.fromMatch m) = g (Shortcode.fromMatch m)) :
    Shortcode.replace tag text f = Shortcode.replace tag text g ∧
    ∀ m ∈ Shortcode.replaceMatches tag text, (m.g1 && m.g7) = true →
      replaceCallback f m = String.mk m.matched := by
  constructor
  · unfold Shortcode.replace
    congr 1
    apply spliceAll_congr
    intro m hm
    unfold replaceCallback
    by_cases he : (m.g1 && m.g7) = true
    · simp only [he, if_true]
    · rw [Bool.not_eq_true] at he
      simp only [he, if_false]
      exact h m hm he
  · intro m _ he
    simp only [replaceCallback, he, if_true]

/-- C1 witness: over `[[x]] [x]` with tag `x`, two replacers agreeing on
the single non-escaped occurrence give identical output, and the escaped
occurrence's callback result is its matched text. -/
theorem c1_witness :
    Shortcode.replace "x" "[[x]] [x]" (fun _ => "R") =
      Shortcode.replace "x" "[[x]] [x]"
        (fun sc => if sc.content.isSome then "Q" else "R") ∧
    ∀ m ∈ Shortcode.replaceMatches "x" "[[x]] [x]", (m.g1 && m.g7) = true →
      replaceCallback (fun _ => "R") m = String.mk m.matched :=
  c1_escaped_passthrough "x" "[[x]] [x]" (fun _ => "R")
    (fun sc => if sc.content.isSome then "Q" else "R") (by decide)

/-- Helper: the timed sequential run computes the positional splice, its
call spans chain end-to-start, and its first call starts at the current
clock. -/
theorem runTimedF_spec (text : List Char) (vals : Nat → Shortcode → String)
    (d : Nat → Shortcode → Nat) :
    ∀ (ms : List SCMatch) (pos k clock : Nat),
      (runTimedF text (fun j sc => (d j sc, vals j sc)) ms pos k clock).output =
        String.mk (spliceIdx text vals ms pos k) ∧
      List.Chain' (fun a b => a.2 = b.1)
        ((runTimedF text (fun j sc => (d j sc, vals j sc)) ms pos k clock).callSpans) ∧
      ∀ p ∈ ((runTimedF text (fun j sc => (d j sc, vals j sc)) ms pos k clock).callSpans).head?,
        p.1 = clock := by
  intro ms
  induction ms with
  | nil =>
    intro pos k clock
    refine ⟨rfl, List.chain'_nil, ?_⟩
    intro p hp
    simp [runTimedF] at hp
  | cons m ms ih =>
    intro pos k clock
    by_cases he : (m.g1 && m.g7) = true
    · have h1 := ih m.lastIndex k clock
      simp only [runTimedF, spliceIdx, he, if_true]
      refine ⟨?_, h1.2.1, h1.2.2⟩
      rw [h1.1]
      rfl
    · rw [Bool.not_eq_true] at he
      have h1 := ih m.lastIndex (k + 1) (clock + d k (Shortcode.fromMatch m))
      simp only [runTimedF, spliceIdx, he, Bool.false_eq_true, if_false]
      refine ⟨?_, ?_, ?_⟩
      · rw [h1.1]
        rfl
      · refine List.chain'_cons'.mpr ⟨?_, h1.2.1⟩
        intro p hp
        exact (h1.2.2 p hp).symm
      · intro p hp
        simp only [List.head?_cons, Option.mem_def, Option.some.injEq] at hp
        rw [← hp]

/-- C5: `replaceAll` processes occurrences strictly sequentially - each
replacer call starts exactly at the tick the previous call's result
resolved - and for every assignment of asynchronous resolution delays
(including delays under which a later call's result is ready before an
earlier call's would be), the final output interleaves the replacement
values in original left-to-right positional order with unmatched spans
copied verbatim; in particular the output is independent of the delays. -/
theorem c5_sequential_order (tag text : String)
    (vals : Nat → Shortcode → String) (d : Nat → Shortcode → Nat) :
    (Shortcode.replaceTimed tag text (fun k sc => (d k sc, vals k sc))).output =
      String.mk (spliceIdx text.data vals (Shortcode.replaceMatches tag text) 0 0) ∧
    List.Chain' (fun a b => a.2 = b.1)
      (Shortcode.replaceTimed tag text (fun k sc => (d k sc, vals k sc))).callSpans := by
  have h := runTimedF_spec text.data vals d (Shortcode.replaceMatches tag text) 0 0 0
  exact ⟨h.1, h.2.1⟩

/-- C8 (amended): the constructor adopts a `{named, numeric}` object
as-is exactly when `_.keys(attrs)` equals `['named', 'numeric']`
including order; since lodash key order is insertion order, an object
whose two keys were inserted in the other order is instead routed through
`set` as a flat map (see the counterexample). -/
theorem c8_as_is_order_sensitive (tag : String) (ty c : Option String)
    (m : List (String × String)) (l : List String) :
    (Shortcode.ofOptions
      { tag := tag, attrs := .obj [("named", .fmap m), ("numeric", .flist l)],
        type := ty, content := c }).attrs = ⟨m, l⟩ := by
  rfl

/-- Helper: a member of `objSet m k v` is the new pair or an old one. -/
theorem objSet_mem {m : List (String × String)} {k v : String}
    {p : String × String} (h : p ∈ objSet m k v) : p = (k, v) ∨ p ∈ m := by
  unfold objSet at h
  by_cases hc : m.any (fun q => q.1 == k) = true
  · rw [if_pos hc] at h
    obtain ⟨q, hq, hpq⟩ := List.mem_map.mp h
    by_cases hqk : (q.1 == k) = true
    · rw [if_pos hqk] at hpq
      exact Or.inl hpq.symm
    · rw [Bool.not_eq_true] at hqk
      rw [if_neg (by simp [hqk])] at hpq
      exact Or.inr (hpq ▸ hq)
  · rw [if_neg hc] at h
    rcases List.mem_append.mp h with h1 | h1
    · exact Or.inr h1
    · exact Or.inl (List.mem_singleton.mp h1)

/-- Helper: `jsLowerChar` never returns an upper-case ASCII letter. -/
theorem jsLowerChar_noUpper (c : Char) :
    ('A' ≤ jsLowerChar c && jsLowerChar c ≤ 'Z') = false := by
  unfold jsLowerChar
  by_cases h : ('A' ≤ c && c ≤ 'Z') = true
  · simp only [h, if_true]
    simp only [Bool.and_eq_true, decide_eq_true_eq] at h
    obtain ⟨h1, h2⟩ := h
    rw [Char.le_def] at h1 h2
    have hb1 : 97 ≤ c.toNat + 32 := by
      have : (65 : Nat) ≤ c.toNat := h1
      omega
    have hb2 : c.toNat + 32 ≤ 122 := by
      have : c.toNat ≤ (90 : Nat) := h2
      omega
    set n := c.toNat + 32 with hn
    clear_value n
    interval_cases n <;> decide
  · rw [Bool.not_eq_true] at h
    simp only [h, Bool.false_eq_true, if_false]

/-- Helper: every character of `jsLowerStr s` is non-upper-case. -/
theorem jsLowerStr_noUpper (s : String) : noUpperStr (jsLowerStr s) = true := by
  unfold noUpperStr jsLowerStr
  rw [List.all_eq_true]
  intro c hc
  obtain ⟨c', _, rfl⟩ := List.mem_map.mp hc
  rw [jsLowerChar_noUpper]
  rfl

/-- Helper: every named key the attribute parser inserts is lower-cased. -/
theorem foldl_applyAction_keys_lower (acts : List AttrAction) :
    ∀ (acc : Attrs), (∀ p ∈ acc.named, noUpperStr p.1 = true) →
      ∀ p ∈ (acts.foldl applyAction acc).named, noUpperStr p.1 = true := by
  induction acts with
  | nil => intro acc hacc; exact hacc
  | cons a acts ih =>
    intro acc hacc
    refine ih (applyAction acc a) ?_
    intro p hp
    cases a with
    | namedDq k v =>
      simp only [applyAction] at hp
      by_cases hk : k.isEmpty = true
      · rw [if_pos hk] at hp; exact hacc p hp
      · rw [if_neg hk] at hp
        rcases objSet_mem hp with h1 | h1
        · rw [h1]; exact jsLowerStr_noUpper _
        · exact hacc p h1
    | namedSq k v =>
      simp only [applyAction] at hp
      by_cases hk : k.isEmpty = true
      · rw [if_pos hk] at hp; exact hacc p hp
      · rw [if_neg hk] at hp
        rcases objSet_mem hp with h1 | h1
        · rw [h1]; exact jsLowerStr_noUpper _
        · exact hacc p h1
    | namedUq k v =>
      simp only [applyAction] at hp
      by_cases hk : k.isEmpty = true
      · rw [if_pos hk] at hp; exact hacc p hp
      · rw [if_neg hk] at hp
        rcases objSet_mem hp with h1 | h1
        · rw [h1]; exact jsLowerStr_noUpper _
        · exact hacc p h1
    | numDq v =>
      simp only [applyAction] at hp
      by_cases hv : v.isEmpty = true
      · rw [if_pos hv] at hp; exact hacc p hp
      · rw [if_neg hv] at hp; exact hacc p hp
    | numUq v =>
      simp only [applyAction] at hp
      by_cases hv : v.isEmpty = true
      · rw [if_pos hv] at hp; exact hacc p hp
      · rw [if_neg hv] at hp; exact hacc p hp

/-- C4 (amended): named keys are lower-cased only on the raw-attribute-
string construction route: every named key of an entity built from a raw
attribute string contains no upper-case ASCII letter.  The pre-structured
`{named, numeric}` route and the flat-map/`set` route store keys verbatim
(see the counterexample). -/
theorem c4_raw_route_keys_lower (tag s : String) (ty c : Option String)
    (p : String × String)
    (h : p ∈ (Shortcode.ofOptions
      { tag := tag, attrs := .rawStr s, type := ty, content := c }).attrs.named) :
    noUpperStr p.1 = true := by
  simp only [Shortcode.ofOptions] at h
  by_cases hs : (s == "") = true
  · rw [if_pos hs] at h
    simp at h
  · rw [if_neg hs] at h
    simp only [parseAttrs] at h
    exact foldl_applyAction_keys_lower _ ⟨[], []⟩ (by intro p hp; simp at hp) p h

/-- C4 witness: the raw attribute text `A="1"` produces the lower-cased
key `a`, whose membership instantiates the amended claim. -/
theorem c4_witness : noUpperStr "a" = true :=
  c4_raw_route_keys_lower "t" "A=\"1\"" none none ("a", "1") (by decide)

/-- Helper: a tag-name character is none of the pattern metacharacters. -/
theorem wordHy_beq_false {c : Char} (hc : wordHyChar c = true) (x : Char)
    (hx : wordHyChar x = false) : (c == x) = false := by
  cases hb : c == x with
  | false => rfl
  | true =>
    have hcx := eq_of_beq hb
    subst hcx
    rw [hc] at hx
    exact absurd hx (by simp)

/-- Helper: scanner step on a tag-name character, from plain or
just-after-`(` mode. -/
theorem pStep_word (c : Char) (hc : wordHyChar c = true) (d : Nat) (q : QSt) :
    pStep { mode := .normal, depth := d, q := q, bad := false } c =
      { mode := .normal, depth := d, q := .canQ, bad := false } ∧
    pStep { mode := .openGroup, depth := d, q := q, bad := false } c =
      { mode := .normal, depth := d, q := .canQ, bad := false } := by
  have h1 := wordHy_beq_false hc '\\' (by decide)
  have h2 := wordHy_beq_false hc '(' (by decide)
  have h3 := wordHy_beq_false hc ')' (by decide)
  have h4 := wordHy_beq_false hc '[' (by decide)
  have h5 := wordHy_beq_false hc '*' (by decide)
  have h6 := wordHy_beq_false hc '+' (by decide)
  have h7 := wordHy_beq_false hc '?' (by decide)
  have h8 := wordHy_beq_false hc '|' (by decide)
  constructor <;>
    simp only [pStep, pStepNormal, h1, h2, h3, h4, h5, h6, h7, h8,
      Bool.false_eq_true, if_false, Bool.or_self]

/-- Helper: folding the scanner over tag-name characters from plain mode
keeps depth and mode, ending quantifiable when non-empty. -/
theorem foldl_pStep_word (t : List Char) (ht : ∀ c ∈ t, wordHyChar c = true)
    (d : Nat) :
    t.foldl pStep { mode := .normal, depth := d, q := .canQ, bad := false } =
      { mode := .normal, depth := d, q := .canQ, bad := false } := by
  induction t with
  | nil => rfl
  | cons c t ih =>
    rw [List.foldl_cons, (pStep_word c (ht c (by simp)) d .canQ).1]
    exact ih (fun x hx => ht x (by simp [hx]))

/-- C3 (amended): a tag name containing characters that break pattern
compilation makes `compilePattern` fail fast at `new RegExp` time (e.g.
`(`), and every tag name of word characters and hyphens - the spec's
well-formed names - compiles; but the empty tag name also compiles
(see the counterexample), so emptiness is not validated. -/
theorem c3_regexp_construction :
    (∀ tag : String, tag.data.all wordHyChar = true → regexpCompiles tag = true) ∧
    regexpCompiles "(" = false := by
  constructor
  · intro tag htag
    rw [List.all_eq_true] at htag
    unfold regexpCompiles regexpSource patternOk
    rw [String.data_append, String.data_append, List.foldl_append, List.foldl_append]
    have hH : (("\\[(\\[?)(" : String).data.foldl pStep pInit) =
        { mode := .openGroup, depth := 1, q := .noQ, bad := false } := by rfl
    rcases htc : tag.data with _ | ⟨c, t⟩
    · rw [hH]
      rfl
    · have h2 : List.foldl pStep
          { mode := .openGroup, depth := 1, q := .noQ, bad := false } (c :: t) =
          { mode := .normal, depth := 1, q := .canQ, bad := false } := by
        rw [List.foldl_cons,
          (pStep_word c (htag c (by rw [htc]; exact List.mem_cons_self _ _)) 1 .noQ).2]
        exact foldl_pStep_word t
          (fun x hx => htag x (by rw [htc]; exact List.mem_cons_of_mem _ hx)) 1
      rw [hH, h2]
      rfl
  · rfl

/-- C3 witness: the well-formed tag name `shout` compiles. -/
theorem c3_witness : regexpCompiles "shout" = true :=
  c3_regexp_construction.1 "shout" (by decide)

/-! ## Round-trip: list utilities -/

/-- Helper: a non-empty list is not `isEmpty`. -/
theorem isEmpty_false_of_ne {a : List Char} (h : a ≠ []) : a.isEmpty = false := by
  cases a with
  | nil => exact absurd rfl h
  | cons x t => rfl

/-- Helper: `takeWhile` over a satisfying block stops at the first
failing character. -/
theorem takeWhile_append_stop (p : Char → Bool) (a : List Char) (c : Char)
    (b : List Char) (ha : ∀ x ∈ a, p x = true) (hc : p c = false) :
    (a ++ c :: b).takeWhile p = a := by
  induction a with
  | nil => simp [List.takeWhile_cons, hc]
  | cons x a ih =>
    rw [List.cons_append, List.takeWhile_cons, ha x (List.mem_cons_self x a)]
    simp only [if_true]
    rw [ih (fun y hy => ha y (List.mem_cons_of_mem x hy))]

/-- Helper: `dropWhile` over a satisfying block drops exactly it. -/
theorem dropWhile_append_stop (p : Char → Bool) (a : List Char) (c : Char)
    (b : List Char) (ha : ∀ x ∈ a, p x = true) (hc : p c = false) :
    (a ++ c :: b).dropWhile p = c :: b := by
  induction a with
  | nil => simp [List.dropWhile_cons, hc]
  | cons x a ih =>
    rw [List.cons_append, List.dropWhile_cons, ha x (List.mem_cons_self x a)]
    simp only [if_true]
    exact ih (fun y hy => ha y (List.mem_cons_of_mem x hy))

/-- Helper: `takeWhile` of an all-satisfying list is the list. -/
theorem takeWhile_all (p : Char → Bool) (a : List Char)
    (ha : ∀ x ∈ a, p x = true) : a.takeWhile p = a := by
  induction a with
  | nil => rfl
  | cons x a ih =>
    rw [List.takeWhile_cons, ha x (List.mem_cons_self x a)]
    simp only [if_true]
    rw [ih (fun y hy => ha y (List.mem_cons_of_mem x hy))]

/-- Helper: `dropWhile` of an all-satisfying list is empty. -/
theorem dropWhile_all (p : Char → Bool) (a : List Char)
    (ha : ∀ x ∈ a, p x = true) : a.dropWhile p = [] := by
  induction a with
  | nil => rfl
  | cons x a ih =>
    rw [List.dropWhile_cons, ha x (List.mem_cons_self x a)]
    simp only [if_true]
    exact ih (fun y hy => ha y (List.mem_cons_of_mem x hy))

/-- Helper: `dropWhile` past an all-satisfying block. -/
theorem dropWhile_append_all (p : Char → Bool) (a b : List Char)
    (ha : ∀ x ∈ a, p x = true) : (a ++ b).dropWhile p = b.dropWhile p := by
  induction a with
  | nil => rfl
  | cons x a ih =>
    rw [List.cons_append, List.dropWhile_cons, ha x (List.mem_cons_self x a)]
    simp only [if_true]
    exact ih (fun y hy => ha y (List.mem_cons_of_mem x hy))

/-- Helper: the head of a non-nil `dropWhile` fails the predicate and the
result is a suffix. -/
theorem dropWhile_head_false (p : Char → Bool) (a : List Char) (c : Char)
    (r : List Char) (h : a.dropWhile p = c :: r) : p c = false ∧ c ∈ a := by
  induction a with
  | nil => simp at h
  | cons x a ih =>
    rw [List.dropWhile_cons] at h
    by_cases hx : p x = true
    · rw [if_pos hx] at h
      obtain ⟨h1, h2⟩ := ih h
      exact ⟨h1, List.mem_cons_of_mem x h2⟩
    · rw [if_neg hx] at h
      injection h with h1 h2
      subst h1
      rw [Bool.not_eq_true] at hx
      exact ⟨hx, List.mem_cons_self x a⟩

/-! ## Round-trip: the attribute alternatives on serialized tokens -/

/-- Helper: what remains after skipping word characters then whitespace
at a bare token: nothing, or a non-`=` character. -/
theorem bare_after_word_skip (v rest : List Char)
    (hvs : ∀ x ∈ v, isJsSpace x = false) (hve : ∀ x ∈ v, (x == '=') = false)
    (hrest : GoodTail rest) :
    ((v ++ rest).dropWhile isWordChar).dropWhile isJsSpace = [] ∨
    ∃ c r, ((v ++ rest).dropWhile isWordChar).dropWhile isJsSpace = c :: r ∧
      (c == '=') = false := by
  by_cases hall : ∀ x ∈ v, isWordChar x = true
  · rw [dropWhile_append_all _ _ _ hall]
    rcases hrest with h | ⟨c, r2, h, hc1, hc2⟩
    · subst h
      exact Or.inl rfl
    · subst h
      have h1 : (' ' :: (c :: r2)).dropWhile isWordChar = ' ' :: c :: r2 := by
        simp [List.dropWhile_cons, show isWordChar ' ' = false from rfl]
      have h2 : (' ' :: (c :: r2)).dropWhile isJsSpace = (c :: r2).dropWhile isJsSpace := by
        simp [List.dropWhile_cons, show isJsSpace ' ' = true from rfl]
      have h3 : (c :: r2).dropWhile isJsSpace = c :: r2 := by
        simp [List.dropWhile_cons, hc1]
      rw [h1, h2, h3]
      exact Or.inr ⟨c, r2, rfl, hc2⟩
  · have hne : v.dropWhile isWordChar ≠ [] := by
      intro hcon
      rw [List.dropWhile_eq_nil_iff] at hcon
      exact hall hcon
    cases hd : v.dropWhile isWordChar with
    | nil => exact absurd hd hne
    | cons c r' =>
      obtain ⟨hc, hcv⟩ := dropWhile_head_false isWordChar v c r' hd
      rw [List.dropWhile_append]
      rw [hd]
      simp only [List.isEmpty_cons, Bool.false_eq_true, if_false]
      rw [List.cons_append, List.dropWhile_cons, hvs c hcv]
      simp only [Bool.false_eq_true, if_false]
      exact Or.inr ⟨c, r' ++ rest, rfl, hve c hcv⟩

/-- Helper: alternative 1 fails when no `=` follows the word-and-space
prefix. -/
theorem altNamedDq_none_of (s : List Char)
    (h : (s.dropWhile isWordChar).dropWhile isJsSpace = [] ∨
      ∃ c r, (s.dropWhile isWordChar).dropWhile isJsSpace = c :: r ∧
        (c == '=') = false) :
    altNamedDq s = none := by
  unfold altNamedDq
  by_cases hw : (s.takeWhile isWordChar).isEmpty = true
  · simp [hw]
  · simp only [hw, Bool.false_eq_true, if_false]
    rcases h with h | ⟨c, r, h, hc⟩
    · rw [h]
    · rw [h]
      simp [hc]

/-- Helper: alternative 2 fails likewise. -/
theorem altNamedSq_none_of (s : List Char)
    (h : (s.dropWhile isWordChar).dropWhile isJsSpace = [] ∨
      ∃ c r, (s.dropWhile isWordChar).dropWhile isJsSpace = c :: r ∧
        (c == '=') = false) :
    altNamedSq s = none := by
  unfold altNamedSq
  by_cases hw : (s.takeWhile isWordChar).isEmpty = true
  · simp [hw]
  · simp only [hw, Bool.false_eq_true, if_false]
    rcases h with h | ⟨c, r, h, hc⟩
    · rw [h]
    · rw [h]
      simp [hc]

/-- Helper: alternative 3 fails likewise. -/
theorem altNamedUq_none_of (s : List Char)
    (h : (s.dropWhile isWordChar).dropWhile isJsSpace = [] ∨
      ∃ c r, (s.dropWhile isWordChar).dropWhile isJsSpace = c :: r ∧
        (c == '=') = false) :
    altNamedUq s = none := by
  unfold altNamedUq
  by_cases hw : (s.takeWhile isWordChar).isEmpty = true
  · simp [hw]
  · simp only [hw, Bool.false_eq_true, if_false]
    rcases h with h | ⟨c, r, h, hc⟩
    · rw [h]
    · rw [h]
      simp [hc]

/-- Helper: alternative 4 fails off a double quote. -/
theorem altNumDq_none_head (c : Char) (r : List Char) (hc : (c == '"') = false) :
    altNumDq (c :: r) = none := by
  simp [altNumDq, hc]

/-- Helper: alternative 5 consumes a bare token and one separator. -/
theorem altNumUq_token (v rest rest' : List Char) (hv0 : v ≠ [])
    (hvs : ∀ x ∈ v, isJsSpace x = false)
    (hrest : GoodTail rest) (hsep : sepEnd rest = some rest') :
    altNumUq (v ++ rest) = some (v, rest') := by
  unfold altNumUq
  have hvp : ∀ x ∈ v, (!isJsSpace x) = true := by
    intro x hx
    rw [hvs x hx]
    rfl
  have htake : (v ++ rest).takeWhile (fun c => !isJsSpace c) = v := by
    rcases hrest with h | ⟨c, r2, h, _, _⟩
    · subst h
      rw [List.append_nil]
      exact takeWhile_all _ _ hvp
    · subst h
      exact takeWhile_append_stop _ _ _ _ hvp rfl
  have hdrop : (v ++ rest).dropWhile (fun c => !isJsSpace c) = rest := by
    rcases hrest with h | ⟨c, r2, h, _, _⟩
    · subst h
      rw [List.append_nil]
      exact dropWhile_all _ _ hvp
    · subst h
      exact dropWhile_append_stop _ _ _ _ hvp rfl
  simp only [htake, hdrop]
  rw [isEmpty_false_of_ne hv0]
  simp only [Bool.false_eq_true, if_false, hsep, Option.map_some']

/-- Helper: distinct predicate values force distinct characters. -/
theorem pred_beq_false {p : Char → Bool} {c x : Char} (hc : p c = true)
    (hx : p x = false) : (c == x) = false := by
  cases hb : c == x with
  | false => rfl
  | true =>
    have hcx := eq_of_beq hb
    subst hcx
    rw [hc] at hx
    exact absurd hx (by simp)

/-- Helper: characters with distinct codes are distinct. -/
theorem char_beq_false_of_toNat {c x : Char} (h : c.toNat ≠ x.toNat) :
    (c == x) = false := by
  cases hb : c == x with
  | false => rfl
  | true => exact absurd (congrArg Char.toNat (eq_of_beq hb)) h

/-- Helper: word characters live in the ASCII band 48-122. -/
theorem isWordChar_toNat {c : Char} (h : isWordChar c = true) :
    48 ≤ c.toNat ∧ c.toNat ≤ 122 := by
  unfold isWordChar at h
  simp only [Bool.or_eq_true, Bool.and_eq_true, decide_eq_true_eq, beq_iff_eq] at h
  rcases h with ((⟨h1, h2⟩ | ⟨h1, h2⟩) | ⟨h1, h2⟩) | h1
  · rw [Char.le_def] at h1 h2
    have ha : (97 : Nat) ≤ c.toNat := h1
    have hb : c.toNat ≤ 122 := h2
    omega
  · rw [Char.le_def] at h1 h2
    have ha : (65 : Nat) ≤ c.toNat := h1
    have hb : c.toNat ≤ 90 := h2
    omega
  · rw [Char.le_def] at h1 h2
    have ha : (48 : Nat) ≤ c.toNat := h1
    have hb : c.toNat ≤ 57 := h2
    omega
  · subst h1
    exact ⟨by decide, by decide⟩

/-- Helper: nothing in the ASCII band 33-125 is JS whitespace. -/
theorem isJsSpace_false_mid {c : Char} (h1 : 33 ≤ c.toNat) (h2 : c.toNat ≤ 125) :
    isJsSpace c = false := by
  have ne : ∀ x : Char, x.toNat < 33 ∨ 125 < x.toNat → (c == x) = false := by
    intro x hx
    exact char_beq_false_of_toNat (by omega)
  have h2000 : decide (' ' ≤ c) = false := by
    apply decide_eq_false
    intro hcon
    rw [Char.le_def] at hcon
    have : (8192 : Nat) ≤ c.toNat := hcon
    omega
  unfold isJsSpace
  rw [ne ' ' (by decide), ne '\t' (by decide), ne '\n' (by decide),
    ne '\x0b' (by decide), ne '\x0c' (by decide), ne '\r' (by decide),
    ne ' ' (by decide), ne ' ' (by decide), ne ' ' (by decide),
    ne ' ' (by decide), ne ' ' (by decide), ne ' ' (by decide),
    ne '　' (by decide), ne '﻿' (by decide), h2000]
  rfl

/-- Helper: a word character is not whitespace. -/
theorem isWordChar_not_space {c : Char} (h : isWordChar c = true) :
    isJsSpace c = false := by
  have hb := isWordChar_toNat h
  exact isJsSpace_false_mid (by omega) (by omega)

/-- Helper: the components of a clean value character. -/
theorem cleanVal_parts {c : Char} (h : cleanValChar c = true) :
    (c == '"') = false ∧ (c == ']') = false ∧
      (c == ' ') = false ∧ (c == '​') = false := by
  unfold cleanValChar at h
  simp only [Bool.and_eq_true, bne_iff_ne, ne_eq] at h
  obtain ⟨⟨⟨h1, h2⟩, h3⟩, h4⟩ := h
  exact ⟨beq_eq_false_iff_ne.mpr h1, beq_eq_false_iff_ne.mpr h2,
    beq_eq_false_iff_ne.mpr h3, beq_eq_false_iff_ne.mpr h4⟩

/-- Helper: a non-empty `isEmpty`-false list. -/
theorem ne_nil_of_not_isEmpty {a : List Char} (h : (!a.isEmpty) = true) :
    a ≠ [] := by
  intro hcon
  subst hcon
  exact absurd h (by simp)

/-- Helper: the components of a valid named key. -/
theorem validNamedKey_parts {k : String} (h : validNamedKey k = true) :
    k.data ≠ [] ∧ (∀ x ∈ k.data, isWordChar x = true) ∧ noUpperStr k = true := by
  unfold validNamedKey at h
  simp only [Bool.and_eq_true] at h
  obtain ⟨⟨h1, h2⟩, h3⟩ := h
  exact ⟨ne_nil_of_not_isEmpty h1, List.all_eq_true.mp h2, h3⟩

/-- Helper: the components of a valid positional value. -/
theorem validNumericVal_parts {v : String} (h : validNumericVal v = true) :
    v.data ≠ [] ∧ (∀ x ∈ v.data, cleanValChar x = true) ∧
      v.data.getLast? ≠ some '/' ∧
      (v.data.any isJsSpace = true ∨ ∀ x ∈ v.data, (x == '=') = false) := by
  unfold validNumericVal at h
  simp only [Bool.and_eq_true, Bool.or_eq_true] at h
  obtain ⟨⟨⟨h1, h2⟩, h3⟩, h4⟩ := h
  refine ⟨ne_nil_of_not_isEmpty h1, List.all_eq_true.mp h2, ?_, ?_⟩
  · rw [bne_iff_ne] at h3
    exact h3
  · rcases h4 with h4 | h4
    · exact Or.inl h4
    · refine Or.inr ?_
      intro x hx
      have := List.all_eq_true.mp h4 x hx
      simpa [bne] using this

/-- Helper: alternative 1 consumes a named token and one separator. -/
theorem altNamedDq_token (k v rest rest' : List Char)
    (hk0 : k ≠ []) (hkw : ∀ x ∈ k, isWordChar x = true)
    (hv : ∀ x ∈ v, (x == '"') = false)
    (hsep : sepEnd rest = some rest') :
    altNamedDq (k ++ '=' :: '"' :: (v ++ '"' :: rest)) = some ((k, v), rest') := by
  have h1 : (k ++ '=' :: '"' :: (v ++ '"' :: rest)).takeWhile isWordChar = k :=
    takeWhile_append_stop _ _ _ _ hkw rfl
  have h2 : (k ++ '=' :: '"' :: (v ++ '"' :: rest)).dropWhile isWordChar =
      '=' :: '"' :: (v ++ '"' :: rest) :=
    dropWhile_append_stop _ _ _ _ hkw rfl
  have h3 : ('=' :: '"' :: (v ++ '"' :: rest)).dropWhile isJsSpace =
      '=' :: '"' :: (v ++ '"' :: rest) := by
    simp [List.dropWhile_cons, show isJsSpace '=' = false from rfl]
  have h3b : ('"' :: (v ++ '"' :: rest)).dropWhile isJsSpace =
      '"' :: (v ++ '"' :: rest) := by
    simp [List.dropWhile_cons, show isJsSpace '"' = false from rfl]
  have hvp : ∀ x ∈ v, (x != '"') = true := by
    intro x hx
    have : (x != '"') = !(x == '"') := rfl
    rw [this, hv x hx]
    rfl
  have h4 : (v ++ '"' :: rest).takeWhile (fun c => c != '"') = v :=
    takeWhile_append_stop _ _ _ _ hvp rfl
  have h5 : (v ++ '"' :: rest).dropWhile (fun c => c != '"') = '"' :: rest :=
    dropWhile_append_stop _ _ _ _ hvp rfl
  unfold altNamedDq
  simp only [h1, h2, h3, h3b, h4, h5, isEmpty_false_of_ne hk0,
    Bool.false_eq_true, if_false, hsep, Option.map_some']
  rfl

/-- Helper: the alternatives at a named token pick alternative 1. -/
theorem altsAt_namedDq_token (k v rest rest' : List Char)
    (hk0 : k ≠ []) (hkw : ∀ x ∈ k, isWordChar x = true)
    (hv : ∀ x ∈ v, (x == '"') = false)
    (hsep : sepEnd rest = some rest') :
    altsAt (k ++ '=' :: '"' :: (v ++ '"' :: rest)) =
      some (.namedDq k v, rest') := by
  unfold altsAt
  rw [altNamedDq_token k v rest rest' hk0 hkw hv hsep]

/-- Helper: alternative 4 consumes a quoted numeric token and one
separator. -/
theorem altsAt_numDq_token (v rest rest' : List Char)
    (hv : ∀ x ∈ v, (x == '"') = false)
    (hsep : sepEnd rest = some rest') :
    altsAt ('"' :: (v ++ '"' :: rest)) = some (.numDq v, rest') := by
  have hvp : ∀ x ∈ v, (x != '"') = true := by
    intro x hx
    have : (x != '"') = !(x == '"') := rfl
    rw [this, hv x hx]
    rfl
  have h4 : (v ++ '"' :: rest).takeWhile (fun c => c != '"') = v :=
    takeWhile_append_stop _ _ _ _ hvp rfl
  have h5 : (v ++ '"' :: rest).dropWhile (fun c => c != '"') = '"' :: rest :=
    dropWhile_append_stop _ _ _ _ hvp rfl
  have hnd : altNamedDq ('"' :: (v ++ '"' :: rest)) = none := rfl
  have hns : altNamedSq ('"' :: (v ++ '"' :: rest)) = none := rfl
  have hnu : altNamedUq ('"' :: (v ++ '"' :: rest)) = none := rfl
  unfold altsAt
  rw [hnd, hns, hnu]
  unfold altNumDq
  simp only [h4, h5, hsep, Option.map_some']
  rfl

/-- Helper: the alternatives at a bare numeric token pick alternative 5. -/
theorem altsAt_numUq_token (v rest rest' : List Char) (hv0 : v ≠ [])
    (hv : ∀ x ∈ v, isJsSpace x = false ∧ (x == '"') = false ∧ (x == '=') = false)
    (hrest : GoodTail rest) (hsep : sepEnd rest = some rest') :
    altsAt (v ++ rest) = some (.numUq v, rest') := by
  have hskip := bare_after_word_skip v rest (fun x hx => (hv x hx).1)
    (fun x hx => (hv x hx).2.2) hrest
  unfold altsAt
  rw [altNamedDq_none_of _ hskip, altNamedSq_none_of _ hskip,
    altNamedUq_none_of _ hskip]
  cases hv' : v with
  | nil => exact absurd hv' hv0
  | cons c v2 =>
    rw [List.cons_append, altNumDq_none_head c _ ((hv c (by rw [hv']; exact List.mem_cons_self c v2)).2.1),
      ← List.cons_append, ← hv', altNumUq_token v rest rest' hv0 (fun x hx => (hv x hx).1) hrest hsep]

/-- Helper: scanning nothing yields nothing. -/
theorem scanActionsF_nil (fuel : Nat) : scanActionsF fuel [] = [] := by
  cases fuel <;> rfl

/-- Helper: unfolding the scan one step on a non-empty input. -/
theorem scanActionsF_cons (fuel : Nat) (c : Char) (r : List Char) :
    scanActionsF (fuel + 1) (c :: r) =
      match altsAt (c :: r) with
      | some (a, rest) => a :: scanActionsF fuel rest
      | none => scanActionsF fuel r := rfl

/-- Helper: no alternative matches at a space. -/
theorem altsAt_space (r : List Char) : altsAt (' ' :: r) = none := rfl

/-- Helper: a valid token's body starts with a non-space, non-`=`
character. -/
theorem ValidATok.body_head {t : ATok} (h : ValidATok t) :
    ∃ c r, t.body = c :: r ∧ isJsSpace c = false ∧ (c == '=') = false := by
  cases t with
  | num v =>
    obtain ⟨hne, hclean, hlast, halt⟩ := validNumericVal_parts h
    by_cases hq : v.data.any isJsSpace = true
    · exact ⟨'"', v.data ++ ['"'], by simp [ATok.body, hq], rfl, rfl⟩
    · rw [Bool.not_eq_true] at hq
      cases hv : v.data with
      | nil => exact absurd hv hne
      | cons c r =>
        have hcm : c ∈ v.data := by
          rw [hv]
          exact List.mem_cons_self c r
        have hcs : isJsSpace c = false := by
          have := List.any_eq_false.mp hq c hcm
          rwa [Bool.not_eq_true] at this
        have hce : (c == '=') = false := by
          rcases halt with halt | halt
          · rw [hq] at halt
            exact absurd halt (by simp)
          · exact halt c hcm
        refine ⟨c, r, ?_, hcs, hce⟩
        have hbody : ATok.body (.num v) = v.data := by
          simp [ATok.body, hq]
        rw [hbody, hv]
  | nam k v =>
    obtain ⟨hk0, hkw, _⟩ := validNamedKey_parts h.1
    cases hk : k.data with
    | nil => exact absurd hk hk0
    | cons c r =>
      have hcm : c ∈ k.data := by
        rw [hk]
        exact List.mem_cons_self c r
      exact ⟨c, r ++ '=' :: '"' :: (v.data ++ ['"']), by simp [ATok.body, hk],
        isWordChar_not_space (hkw c hcm), pred_beq_false (hkw c hcm) rfl⟩

/-- Helper: a serialized token list is a good tail. -/
theorem serToks_goodTail (ts : List ATok) (hts : ∀ u ∈ ts, ValidATok u) :
    GoodTail (serToks ts) := by
  cases ts with
  | nil => exact Or.inl rfl
  | cons t ts2 =>
    obtain ⟨c, r, hb, h1, h2⟩ := ValidATok.body_head (hts t (List.mem_cons_self t ts2))
    refine Or.inr ⟨c, r ++ serToks ts2, ?_, h1, h2⟩
    simp [serToks, List.flatten_cons, ATok.serc, hb]

/-- Helper: a serialized cons. -/
theorem serToks_cons (t : ATok) (ts : List ATok) :
    serToks (t :: ts) = ' ' :: (t.body ++ serToks ts) := rfl

/-- Helper: the separator step at a serialized tail. -/
theorem sepEnd_serToks (ts : List ATok) :
    sepEnd (serToks ts) = some (serToks ts).tail := by
  cases ts with
  | nil => rfl
  | cons t ts2 => rfl

/-- Helper: the alternatives consume one valid serialized token body and
the following separator. -/
theorem altsAt_token (t : ATok) (ht : ValidATok t) (ts : List ATok)
    (hts : ∀ u ∈ ts, ValidATok u) :
    altsAt (t.body ++ serToks ts) = some (actionOf t, (serToks ts).tail) := by
  have hgt := serToks_goodTail ts hts
  have hsep := sepEnd_serToks ts
  cases t with
  | nam k v =>
    obtain ⟨hk0, hkw, _⟩ := validNamedKey_parts ht.1
    have hv : ∀ x ∈ v.data, (x == '"') = false := by
      intro x hx
      have := List.all_eq_true.mp ht.2 x hx
      exact (cleanVal_parts this).1
    have hshape : ATok.body (.nam k v) ++ serToks ts =
        k.data ++ '=' :: '"' :: (v.data ++ '"' :: serToks ts) := by
      simp [ATok.body]
    rw [hshape,
      altsAt_namedDq_token k.data v.data (serToks ts) _ hk0 hkw hv hsep]
    rfl
  | num v =>
    obtain ⟨hne, hclean, hlast, halt⟩ := validNumericVal_parts ht
    have hv : ∀ x ∈ v.data, (x == '"') = false := by
      intro x hx
      exact (cleanVal_parts (hclean x hx)).1
    by_cases hq : v.data.any isJsSpace = true
    · have hshape : ATok.body (.num v) ++ serToks ts =
          '"' :: (v.data ++ '"' :: serToks ts) := by
        simp [ATok.body, hq]
      rw [hshape, altsAt_numDq_token v.data (serToks ts) _ hv hsep]
      simp [actionOf, hq]
    · rw [Bool.not_eq_true] at hq
      have hvs : ∀ x ∈ v.data, isJsSpace x = false := by
        intro x hx
        have := List.any_eq_false.mp hq x hx
        rwa [Bool.not_eq_true] at this
      have hveq : ∀ x ∈ v.data, (x == '=') = false := by
        rcases halt with halt | halt
        · rw [hq] at halt
          exact absurd halt (by simp)
        · exact halt
      have hshape : ATok.body (.num v) ++ serToks ts = v.data ++ serToks ts := by
        simp [ATok.body, hq]
      rw [hshape, altsAt_numUq_token v.data (serToks ts) _ hne
        (fun x hx => ⟨hvs x hx, hv x hx, hveq x hx⟩) hgt hsep]
      simp [actionOf, hq]

/-- Helper: scanning from a valid token body produces the token actions
in order. -/
theorem scan_at_body (ts : List ATok) :
    ∀ (t : ATok), ValidATok t → (∀ u ∈ ts, ValidATok u) →
    ∀ fuel, (t.body ++ serToks ts).length < fuel →
      scanActionsF fuel (t.body ++ serToks ts) = actionOf t :: ts.map actionOf := by
  induction ts with
  | nil =>
    intro t ht _ fuel hf
    cases fuel with
    | zero => omega
    | succ f =>
      obtain ⟨c, r, hb, _, _⟩ := ValidATok.body_head ht
      have hcons : t.body ++ serToks [] = c :: (r ++ serToks []) := by
        simp [hb]
      have halts := altsAt_token t ht [] (by intro u hu; simp at hu)
      rw [hcons] at halts
      rw [hcons, scanActionsF_cons, halts]
      show actionOf t :: scanActionsF f (serToks ([] : List ATok)).tail = _
      rw [show (serToks ([] : List ATok)).tail = [] from rfl, scanActionsF_nil]
      rfl
  | cons t2 ts2 ih =>
    intro t ht hts fuel hf
    cases fuel with
    | zero => omega
    | succ f =>
      obtain ⟨c, r, hb, _, _⟩ := ValidATok.body_head ht
      have hfuel : (t2.body ++ serToks ts2).length < f := by
        rw [serToks_cons] at hf
        simp only [List.length_append, List.length_cons] at hf ⊢
        omega
      have hcons : t.body ++ serToks (t2 :: ts2) = c :: (r ++ serToks (t2 :: ts2)) := by
        simp [hb]
      have halts := altsAt_token t ht (t2 :: ts2) hts
      rw [hcons] at halts
      rw [hcons, scanActionsF_cons, halts]
      show actionOf t :: scanActionsF f (serToks (t2 :: ts2)).tail = _
      have htail : (serToks (t2 :: ts2)).tail = t2.body ++ serToks ts2 := rfl
      rw [htail, ih t2 (hts t2 (List.mem_cons_self t2 ts2))
        (fun u hu => hts u (List.mem_cons_of_mem t2 hu)) f hfuel]
      rfl

/-- Helper: scanning a whole serialized token list. -/
theorem scan_serToks (ts : List ATok) (hts : ∀ u ∈ ts, ValidATok u)
    (fuel : Nat) (hf : (serToks ts).length < fuel) :
    scanActionsF fuel (serToks ts) = ts.map actionOf := by
  cases ts with
  | nil =>
    rw [show serToks ([] : List ATok) = [] from rfl, scanActionsF_nil]
    rfl
  | cons t ts2 =>
    cases fuel with
    | zero => omega
    | succ f =>
      have hfuel : (t.body ++ serToks ts2).length < f := by
        rw [serToks_cons] at hf
        simp only [List.length_cons] at hf
        omega
      rw [serToks_cons, scanActionsF_cons, altsAt_space]
      show scanActionsF f (t.body ++ serToks ts2) = _
      rw [scan_at_body ts2 t (hts t (List.mem_cons_self t ts2))
        (fun u hu => hts u (List.mem_cons_of_mem t hu)) f hfuel]
      rfl

/-! ## Round-trip: folding the parsed actions back into the structure -/

/-- Helper: mapping a pointwise-identity function is the identity. -/
theorem map_id_of (f : Char → Char) (l : List Char) (h : ∀ c ∈ l, f c = c) :
    l.map f = l := by
  induction l with
  | nil => rfl
  | cons c t ih =>
    rw [List.map_cons, h c (List.mem_cons_self c t),
      ih (fun x hx => h x (List.mem_cons_of_mem c hx))]

/-- Helper: `jsLowerStr` fixes an already-lower-cased string. -/
theorem jsLowerStr_eq_self {k : String} (h : noUpperStr k = true) :
    jsLowerStr k = k := by
  unfold noUpperStr at h
  have h2 := List.all_eq_true.mp h
  unfold jsLowerStr
  have hmap : k.data.map jsLowerChar = k.data := by
    apply map_id_of
    intro c hc
    have h3 := h2 c hc
    rw [Bool.not_eq_true'] at h3
    unfold jsLowerChar
    simp [h3]
  rw [hmap]

/-- Helper: `objSet` on a fresh key appends. -/
theorem objSet_fresh (m : List (String × String)) (k v : String)
    (h : ∀ p ∈ m, p.1 ≠ k) : objSet m k v = m ++ [(k, v)] := by
  unfold objSet
  have hany : m.any (fun p => p.1 == k) = false := by
    rw [List.any_eq_false]
    intro p hp
    simp only [beq_iff_eq]
    exact h p hp
  rw [hany]
  simp

/-- Helper: folding the numeric actions appends the values in order. -/
theorem foldl_num_actions (vs : List String)
    (hvs : ∀ v ∈ vs, validNumericVal v = true) :
    ∀ acc : Attrs,
      ((vs.map ATok.num).map actionOf).foldl applyAction acc =
        { acc with numeric := acc.numeric ++ vs } := by
  induction vs with
  | nil =>
    intro acc
    simp
  | cons v vs ih =>
    intro acc
    obtain ⟨hne, _, _, _⟩ := validNumericVal_parts (hvs v (List.mem_cons_self v vs))
    have hstep : applyAction acc (actionOf (ATok.num v)) =
        { acc with numeric := acc.numeric ++ [v] } := by
      by_cases hq : v.data.any isJsSpace = true
      · simp only [actionOf, hq, if_true, applyAction,
          isEmpty_false_of_ne hne, Bool.false_eq_true, if_false]
      · rw [Bool.not_eq_true] at hq
        simp only [actionOf, hq, Bool.false_eq_true, if_false, applyAction,
          isEmpty_false_of_ne hne]
    rw [List.map_cons, List.map_cons, List.foldl_cons, hstep,
      ih (fun u hu => hvs u (List.mem_cons_of_mem v hu))]
    simp

/-- Helper: folding the named actions appends the entries in order when
the keys are fresh and pairwise distinct. -/
theorem foldl_named_actions (ps : List (String × String))
    (hkeys : ∀ p ∈ ps, validNamedKey p.1 = true) :
    ∀ acc : Attrs,
      (acc.named.map Prod.fst ++ ps.map Prod.fst).Nodup →
      ((ps.map (fun p => ATok.nam p.1 p.2)).map actionOf).foldl applyAction acc =
        { acc with named := acc.named ++ ps } := by
  induction ps with
  | nil =>
    intro acc _
    simp
  | cons p ps ih =>
    intro acc hnodup
    obtain ⟨k, v⟩ := p
    obtain ⟨hk0, _, hlow⟩ :=
      validNamedKey_parts (hkeys (k, v) (List.mem_cons_self (k, v) ps))
    have hfresh : ∀ q ∈ acc.named, q.1 ≠ k := by
      rw [List.nodup_append] at hnodup
      intro q hq hcon
      have h1 : q.1 ∈ acc.named.map Prod.fst := List.mem_map_of_mem Prod.fst hq
      have h2 : q.1 ∈ ((k, v) :: ps).map Prod.fst := by
        rw [hcon, List.map_cons]
        exact List.mem_cons_self _ _
      exact hnodup.2.2 h1 h2
    have hstep : applyAction acc (actionOf (ATok.nam k v)) =
        { acc with named := acc.named ++ [(k, v)] } := by
      simp only [actionOf, applyAction, isEmpty_false_of_ne hk0,
        Bool.false_eq_true, if_false]
      rw [show String.mk k.data = k from rfl, show String.mk v.data = v from rfl,
        jsLowerStr_eq_self hlow, objSet_fresh acc.named k v hfresh]
    have hnodup2 : ((acc.named ++ [(k, v)]).map Prod.fst ++ ps.map Prod.fst).Nodup := by
      rw [List.map_append]
      rw [List.map_cons, List.append_cons] at hnodup
      exact hnodup
    rw [List.map_cons, List.map_cons, List.foldl_cons, hstep,
      ih (fun u hu => hkeys u (List.mem_cons_of_mem (k, v) hu)) _ hnodup2]
    simp

/-- Helper: every token an `Attrs` serializes to is valid. -/
theorem attrToks_valid (a : Attrs)
    (hkeys : ∀ p ∈ a.named, validNamedKey p.1 = true)
    (hvals : ∀ p ∈ a.named, validNamedVal p.2 = true)
    (hnum : ∀ v ∈ a.numeric, validNumericVal v = true) :
    ∀ u ∈ attrToks a, ValidATok u := by
  intro u hu
  unfold attrToks at hu
  rcases List.mem_append.mp hu with hu | hu
  · obtain ⟨v, hv, rfl⟩ := List.mem_map.mp hu
    exact hnum v hv
  · obtain ⟨p, hp, rfl⟩ := List.mem_map.mp hu
    exact ⟨hkeys p hp, hvals p hp⟩

/-- Helper: serialized tokens contain neither of the two characters the
parser normalizes to spaces. -/
theorem serToks_chars (ts : List ATok) (hts : ∀ u ∈ ts, ValidATok u) :
    ∀ c ∈ serToks ts, (c == ' ') = false ∧ (c == '​') = false := by
  intro c hc
  unfold serToks at hc
  rw [List.mem_flatten] at hc
  obtain ⟨l, hl, hcl⟩ := hc
  obtain ⟨u, hu, rfl⟩ := List.mem_map.mp hl
  have hv := hts u hu
  unfold ATok.serc at hcl
  rcases List.mem_cons.mp hcl with rfl | hcb
  · exact ⟨rfl, rfl⟩
  · cases u with
    | num v =>
      obtain ⟨_, hclean, _, _⟩ := validNumericVal_parts hv
      simp only [ATok.body] at hcb
      by_cases hq : v.data.any isJsSpace = true
      · rw [if_pos hq] at hcb
        rcases List.mem_cons.mp hcb with rfl | hcb2
        · exact ⟨rfl, rfl⟩
        · rcases List.mem_append.mp hcb2 with hc3 | hc3
          · exact ⟨(cleanVal_parts (hclean c hc3)).2.2.1,
              (cleanVal_parts (hclean c hc3)).2.2.2⟩
          · rw [List.mem_singleton.mp hc3]
            exact ⟨rfl, rfl⟩
      · rw [Bool.not_eq_true] at hq
        rw [if_neg (by rw [hq]; simp)] at hcb
        exact ⟨(cleanVal_parts (hclean c hcb)).2.2.1,
          (cleanVal_parts (hclean c hcb)).2.2.2⟩
    | nam k v =>
      obtain ⟨_, hkw, _⟩ := validNamedKey_parts hv.1
      have hvclean := List.all_eq_true.mp hv.2
      simp only [ATok.body] at hcb
      rcases List.mem_append.mp hcb with hc3 | hc3
      · have hb := isWordChar_toNat (hkw c hc3)
        refine ⟨char_beq_false_of_toNat ?_, char_beq_false_of_toNat ?_⟩
        · rw [show (' ' : Char).toNat = 160 from rfl]
          omega
        · rw [show ('​' : Char).toNat = 8203 from rfl]
          omega
      · rcases List.mem_cons.mp hc3 with rfl | hc4
        · exact ⟨rfl, rfl⟩
        · rcases List.mem_cons.mp hc4 with rfl | hc5
          · exact ⟨rfl, rfl⟩
          · rcases List.mem_append.mp hc5 with hc6 | hc6
            · exact ⟨(cleanVal_parts (hvclean c hc6)).2.2.1,
                (cleanVal_parts (hvclean c hc6)).2.2.2⟩
            · rw [List.mem_singleton.mp hc6]
              exact ⟨rfl, rfl⟩

/-- Helper: the space normalization fixes clean inputs. -/
theorem normSpaces_eq_self (l : List Char)
    (h : ∀ c ∈ l, (c == ' ') = false ∧ (c == '​') = false) :
    normSpaces l = l := by
  unfold normSpaces
  apply map_id_of
  intro c hc
  simp only [(h c hc).1, (h c hc).2]
  rfl

/-- Helper: the attribute parser inverts attribute serialization on
well-formed structures. -/
theorem parse_serialized_attrs (a : Attrs)
    (hkeys : ∀ p ∈ a.named, validNamedKey p.1 = true)
    (hvals : ∀ p ∈ a.named, validNamedVal p.2 = true)
    (hnodup : (a.named.map Prod.fst).Nodup)
    (hnum : ∀ v ∈ a.numeric, validNumericVal v = true) :
    parseAttrs (String.mk (serToks (attrToks a))) = a := by
  have hvalid := attrToks_valid a hkeys hvals hnum
  unfold parseAttrs
  rw [show (String.mk (serToks (attrToks a))).data = serToks (attrToks a) from rfl]
  rw [normSpaces_eq_self _ (serToks_chars _ hvalid)]
  show List.foldl applyAction ⟨[], []⟩
    (scanActionsF ((serToks (attrToks a)).length + 1) (serToks (attrToks a))) = a
  rw [scan_serToks (attrToks a) hvalid ((serToks (attrToks a)).length + 1) (by omega)]
  unfold attrToks
  rw [List.map_append, List.foldl_append]
  rw [foldl_num_actions a.numeric hnum ⟨[], []⟩]
  rw [foldl_named_actions a.named hkeys _ (by simpa using hnodup)]
  cases a
  simp

/-! ## Round-trip: the shortcode matcher on serialized text -/

/-- Helper: one step of the attribute-region scan. -/
theorem attrsScanF_succ (f : Nat) (s : List Char) :
    attrsScanF (f + 1) s =
      (match s.dropWhile notAttrStop with
      | [] => none
      | c :: rest =>
        if c == ']' then some (s.takeWhile notAttrStop, false, rest)
        else if c == '/' then
          match rest with
          | [] => none
          | d :: rest2 =>
            if d == ']' then some (s.takeWhile notAttrStop, true, rest2)
            else (attrsScanF f (d :: rest2)).map
              (fun p => (s.takeWhile notAttrStop ++ '/' :: p.1, p.2.1, p.2.2))
        else none) := rfl

/-- Helper: `notAttrStop` from its two character facts. -/
theorem notAttrStop_true {c : Char} (h1 : (c == ']') = false)
    (h2 : (c == '/') = false) : notAttrStop c = true := by
  unfold notAttrStop
  rw [show (c != ']') = !(c == ']') from rfl, show (c != '/') = !(c == '/') from rfl,
    h1, h2]
  rfl

/-- Helper: a `notAttrStop`-failing character that is not `]` is `/`. -/
theorem slash_of_notAttrStop_false {c : Char} (h : notAttrStop c = false)
    (h1 : (c == ']') = false) : c = '/' := by
  unfold notAttrStop at h
  rw [show (c != ']') = !(c == ']') from rfl, show (c != '/') = !(c == '/') from rfl,
    h1] at h
  simp only [Bool.not_false, Bool.true_and, Bool.not_eq_false'] at h
  exact eq_of_beq h

/-- Helper: the attribute-region scan consumes exactly a `]`-free,
non-`/`-terminated attribute text up to the open tag's `]`. -/
theorem attrsScanF_exact (fuel : Nat) :
    ∀ (A rest : List Char),
      (∀ x ∈ A, (x == ']') = false) →
      A.getLast? ≠ some '/' →
      A.length < fuel →
      attrsScanF fuel (A ++ ']' :: rest) = some (A, false, rest) := by
  induction fuel with
  | zero =>
    intro A rest _ _ h
    omega
  | succ f ih =>
    intro A rest hA hlast hlen
    have hsplit := List.takeWhile_append_dropWhile notAttrStop A
    cases hCc : A.dropWhile notAttrStop with
    | nil =>
      have hAall : ∀ x ∈ A, notAttrStop x = true := List.dropWhile_eq_nil_iff.mp hCc
      rw [attrsScanF_succ,
        dropWhile_append_stop notAttrStop A ']' rest hAall rfl,
        takeWhile_append_stop notAttrStop A ']' rest hAall rfl]
      rfl
    | cons c C' =>
      obtain ⟨hcf, hcA⟩ := dropWhile_head_false notAttrStop A c C' hCc
      have hcsl : c = '/' := slash_of_notAttrStop_false hcf (hA c hcA)
      subst hcsl
      rw [hCc] at hsplit
      have hBall : ∀ x ∈ A.takeWhile notAttrStop, notAttrStop x = true :=
        fun x hx => List.mem_takeWhile_imp hx
      cases hC' : C' with
      | nil =>
        exfalso
        rw [hC'] at hsplit
        apply hlast
        rw [← hsplit, List.getLast?_concat]
      | cons c2 C'' =>
        have hc2A : c2 ∈ A := by
          have hsub : List.Sublist (A.dropWhile notAttrStop) A :=
            List.dropWhile_sublist notAttrStop
          rw [hCc, hC'] at hsub
          exact hsub.mem (List.mem_cons_of_mem _ (List.mem_cons_self c2 C''))
        have hshape : A ++ ']' :: rest =
            A.takeWhile notAttrStop ++ '/' :: (C' ++ ']' :: rest) := by
          conv_lhs => rw [← hsplit]
          simp [List.append_assoc]
        rw [attrsScanF_succ, hshape,
          dropWhile_append_stop notAttrStop _ '/' _ hBall rfl,
          takeWhile_append_stop notAttrStop _ '/' _ hBall rfl]
        have hC'A : ∀ x ∈ C', x ∈ A := by
          intro x hx
          have hsub : List.Sublist (A.dropWhile notAttrStop) A :=
            List.dropWhile_sublist notAttrStop
          rw [hCc] at hsub
          exact hsub.mem (List.mem_cons_of_mem _ hx)
        have hlast' : C'.getLast? ≠ some '/' := by
          intro hcon
          apply hlast
          rw [← hsplit, List.getLast?_append, hC']
          rw [hC'] at hcon
          rw [List.getLast?_cons_cons, hcon]
          rfl
        have hlen' : C'.length < f := by
          have := congrArg List.length hsplit
          simp only [List.length_append, List.length_cons] at this
          omega
        have hrec : attrsScanF f (c2 :: (C'' ++ ']' :: rest)) =
            some (c2 :: C'', false, rest) := by
          have h0 := ih C' rest (fun x hx => hA x (hC'A x hx)) hlast' hlen'
          rw [hC'] at h0
          simpa [List.cons_append] using h0
        simp only [show (('/' : Char) == ']') = false from rfl,
          show (('/' : Char) == '/') = true from rfl,
          Bool.false_eq_true, if_false, if_true, hC', List.cons_append,
          hA c2 hc2A, hrec, Option.map_some']
        rw [hC'] at hsplit
        rw [← hsplit,
          takeWhile_append_stop notAttrStop (A.takeWhile notAttrStop) '/' (c2 :: C'')
            hBall rfl]

/-- Helper: one step of the content scan. -/
theorem contentScan_cons (tag : List Char) (c : Char) (t : List Char) :
    contentScan tag (c :: t) =
      if (closeSeq tag).isPrefixOf (c :: t) then
        some ([], (c :: t).drop (closeSeq tag).length)
      else (contentScan tag t).map (fun p => (c :: p.1, p.2)) := rfl

/-- Helper: the closing sequence opens with `[` and contains no other `[`. -/
theorem closeSeq_shape (tag : List Char) (htag : ∀ x ∈ tag, wordHyChar x = true) :
    closeSeq tag = '[' :: ('/' :: (tag ++ [']'])) ∧
      ∀ x ∈ '/' :: (tag ++ [']']), (x == '[') = false := by
  refine ⟨rfl, ?_⟩
  intro x hx
  rcases List.mem_cons.mp hx with rfl | hx2
  · rfl
  · rcases List.mem_append.mp hx2 with hx3 | hx3
    · exact pred_beq_false (htag x hx3) rfl
    · rw [List.mem_singleton.mp hx3]
      rfl

/-- Helper: the closing sequence cannot start strictly inside a block it
does not occur in and straddle into its own first occurrence. -/
theorem closeSeq_span_false (tag : List Char)
    (htag : ∀ x ∈ tag, wordHyChar x = true) (d r : List Char) (hd0 : d ≠ [])
    (hpre : (closeSeq tag).isPrefixOf d = false) :
    (closeSeq tag).isPrefixOf (d ++ (closeSeq tag ++ r)) = false := by
  cases hb : (closeSeq tag).isPrefixOf (d ++ (closeSeq tag ++ r)) with
  | false => rfl
  | true =>
    exfalso
    rw [List.isPrefixOf_iff_prefix, List.prefix_iff_eq_take] at hb
    by_cases hlen : (closeSeq tag).length ≤ d.length
    · have h1 : closeSeq tag = List.take (closeSeq tag).length d := by
        conv_lhs => rw [hb]
        rw [List.take_append_eq_append_take,
          show (closeSeq tag).length - d.length = 0 from by omega, List.take_zero,
          List.append_nil]
      have hcs : (closeSeq tag).isPrefixOf d = true := by
        rw [List.isPrefixOf_iff_prefix, List.prefix_iff_eq_take]
        exact h1
      rw [hcs] at hpre
      exact absurd hpre (by simp)
    · have hm : 1 ≤ (closeSeq tag).length - d.length := by omega
      have heq : closeSeq tag = d ++ (closeSeq tag).take ((closeSeq tag).length - d.length) := by
        conv_lhs => rw [hb]
        rw [List.take_append_eq_append_take,
          List.take_of_length_le (by omega : d.length ≤ (closeSeq tag).length),
          List.take_append_eq_append_take,
          show (closeSeq tag).length - d.length - (closeSeq tag).length = 0 from by omega,
          List.take_zero, List.append_nil]
      have hj : (closeSeq tag)[d.length]? = some '[' := by
        conv_lhs => rw [heq]
        rw [List.getElem?_append_right (le_refl d.length), Nat.sub_self,
          List.getElem?_take, if_pos (by omega : 0 < (closeSeq tag).length - d.length)]
        rfl
      obtain ⟨hcons, htail⟩ := closeSeq_shape tag htag
      have hd1 : 1 ≤ d.length := by
        cases d with
        | nil => exact absurd rfl hd0
        | cons x xs => simp
      rw [hcons, show d.length = (d.length - 1) + 1 from by omega,
        List.getElem?_cons_succ] at hj
      have hmem := List.getElem?_mem hj
      have hfalse := htail '[' hmem
      exact absurd hfalse (by simp)

/-- Helper: the content group consumes exactly the content up to the
first closing sequence, which on serialized text is the final one. -/
theorem contentScan_exact (tag : List Char)
    (htag : ∀ x ∈ tag, wordHyChar x = true) :
    ∀ (cl : List Char), hasSeq (closeSeq tag) cl = false →
    ∀ r, contentScan tag (cl ++ (closeSeq tag ++ r)) = some (cl, r) := by
  intro cl
  induction cl with
  | nil =>
    intro _ r
    obtain ⟨hcons, _⟩ := closeSeq_shape tag htag
    rw [List.nil_append]
    have hshape : closeSeq tag ++ r = '[' :: (('/' :: (tag ++ [']'])) ++ r) := by
      rw [hcons]
      rfl
    rw [hshape, contentScan_cons]
    have hpre : (closeSeq tag).isPrefixOf ('[' :: (('/' :: (tag ++ [']'])) ++ r)) = true := by
      rw [List.isPrefixOf_iff_prefix, ← hshape]
      exact List.prefix_append (closeSeq tag) r
    rw [hpre]
    show some ([], ('[' :: (('/' :: (tag ++ [']'])) ++ r)).drop (closeSeq tag).length) =
      some ([], r)
    rw [← hshape, List.drop_left]
  | cons c cl' ih =>
    intro hno r
    have hno2 : ((closeSeq tag).isPrefixOf (c :: cl') || hasSeq (closeSeq tag) cl') = false := hno
    rw [Bool.or_eq_false_iff] at hno2
    have hnpre : (closeSeq tag).isPrefixOf ((c :: cl') ++ (closeSeq tag ++ r)) = false :=
      closeSeq_span_false tag htag (c :: cl') r (by simp) hno2.1
    rw [List.cons_append] at hnpre
    rw [List.cons_append, contentScan_cons, hnpre]
    simp only [Bool.false_eq_true, if_false]
    rw [ih hno2.2 r]
    rfl

/-! ## Round-trip: side conditions of the serialized attribute region -/

/-- Helper: serialized valid tokens contain no `]`. -/
theorem serToks_no_rb (ts : List ATok) (hts : ∀ u ∈ ts, ValidATok u) :
    ∀ c ∈ serToks ts, (c == ']') = false := by
  intro c hc
  unfold serToks at hc
  rw [List.mem_flatten] at hc
  obtain ⟨l, hl, hcl⟩ := hc
  obtain ⟨u, hu, rfl⟩ := List.mem_map.mp hl
  have hv := hts u hu
  unfold ATok.serc at hcl
  rcases List.mem_cons.mp hcl with rfl | hcb
  · rfl
  · cases u with
    | num v =>
      obtain ⟨_, hclean, _, _⟩ := validNumericVal_parts hv
      simp only [ATok.body] at hcb
      by_cases hq : v.data.any isJsSpace = true
      · rw [if_pos hq] at hcb
        rcases List.mem_cons.mp hcb with rfl | hcb2
        · rfl
        · rcases List.mem_append.mp hcb2 with hc3 | hc3
          · exact (cleanVal_parts (hclean c hc3)).2.1
          · rw [List.mem_singleton.mp hc3]
            rfl
      · rw [Bool.not_eq_true] at hq
        rw [if_neg (by rw [hq]; simp)] at hcb
        exact (cleanVal_parts (hclean c hcb)).2.1
    | nam k v =>
      obtain ⟨_, hkw, _⟩ := validNamedKey_parts hv.1
      have hvclean := List.all_eq_true.mp hv.2
      simp only [ATok.body] at hcb
      rcases List.mem_append.mp hcb with hc3 | hc3
      · exact pred_beq_false (hkw c hc3) (by decide)
      · rcases List.mem_cons.mp hc3 with rfl | hc4
        · rfl
        · rcases List.mem_cons.mp hc4 with rfl | hc5
          · rfl
          · rcases List.mem_append.mp hc5 with hc6 | hc6
            · exact (cleanVal_parts (hvclean c hc6)).2.1
            · rw [List.mem_singleton.mp hc6]
              rfl

/-- Helper: the last element of a nonempty list is never dropped by a
left append. -/
theorem getLast?_cons_ne_none (c : Char) (m : List Char) :
    (c :: m).getLast? ≠ none := by
  induction m generalizing c with
  | nil => simp
  | cons d m ih =>
    rw [List.getLast?_cons_cons]
    exact ih d

/-- Helper: appending on the left keeps the last element. -/
theorem getLast?_append_cons (l : List Char) (c : Char) (m : List Char) :
    (l ++ (c :: m)).getLast? = (c :: m).getLast? := by
  rw [List.getLast?_append]
  cases hy : (c :: m).getLast? with
  | none => exact absurd hy (getLast?_cons_ne_none c m)
  | some y => rfl

/-- Helper: one serialized valid token never ends in a slash. -/
theorem serc_getLast (u : ATok) (hu : ValidATok u) :
    (ATok.serc u).getLast? ≠ some '/' := by
  unfold ATok.serc
  cases u with
  | num v =>
    obtain ⟨hne, _, hlast, _⟩ := validNumericVal_parts hu
    simp only [ATok.body]
    by_cases hq : v.data.any isJsSpace = true
    · rw [if_pos hq]
      rw [show (' ' :: ('"' :: (v.data ++ ['"']))) =
        ((' ' :: '"' :: v.data) ++ ['"']) from by simp]
      rw [List.getLast?_concat]
      simp
    · rw [if_neg hq]
      cases hv : v.data with
      | nil => exact absurd hv hne
      | cons c r =>
        rw [List.getLast?_cons_cons, ← hv]
        exact hlast
  | nam k v =>
    simp only [ATok.body]
    rw [show (' ' :: (k.data ++ '=' :: '"' :: (v.data ++ ['"']))) =
      ((' ' :: k.data ++ '=' :: '"' :: v.data) ++ ['"']) from by simp]
    rw [List.getLast?_concat]
    simp

/-- Helper: a serialized valid token list never ends in a slash. -/
theorem serToks_getLast (ts : List ATok) (hts : ∀ u ∈ ts, ValidATok u) :
    (serToks ts).getLast? ≠ some '/' := by
  induction ts with
  | nil => simp [serToks]
  | cons t ts2 ih =>
    rw [serToks_cons]
    cases hS : serToks ts2 with
    | nil =>
      rw [List.append_nil]
      exact serc_getLast t (hts t (List.mem_cons_self t ts2))
    | cons d X =>
      have ih2 := ih (fun u hu => hts u (List.mem_cons_of_mem t hu))
      rw [hS] at ih2
      rw [show (' ' :: (ATok.body t ++ d :: X)) =
        ((' ' :: ATok.body t) ++ (d :: X)) from rfl]
      rw [getLast?_append_cons]
      exact ih2

/-- Helper: a serialized token list is empty or starts with a space. -/
theorem serToks_shape (ts : List ATok) :
    serToks ts = [] ∨ ∃ r, serToks ts = ' ' :: r := by
  cases ts with
  | nil => exact Or.inl rfl
  | cons t ts2 => exact Or.inr ⟨ATok.body t ++ serToks ts2, serToks_cons t ts2⟩

/-- Helper: the components of a valid tag name. -/
theorem validTagName_parts {s : String} (h : validTagName s = true) :
    s.data ≠ [] ∧ ∀ x ∈ s.data, wordHyChar x = true := by
  unfold validTagName at h
  simp only [Bool.and_eq_true] at h
  exact ⟨ne_nil_of_not_isEmpty h.1, List.all_eq_true.mp h.2⟩

/-! ## Round-trip: the shape of serialized text -/

/-- Helper: a string fold of appends, at the character level. -/
theorem foldl_append_data {α : Type} (f : α → String) (l : List α) :
    ∀ acc : String, (l.foldl (fun a x => a ++ f x) acc).data =
      acc.data ++ (l.map (fun x => (f x).data)).flatten := by
  induction l with
  | nil =>
    intro acc
    simp
  | cons x l ih =>
    intro acc
    rw [List.foldl_cons, ih, List.map_cons, List.flatten_cons, String.data_append]
    simp [List.append_assoc]

/-- Helper: one serialized numeric token, at the character level. -/
theorem serc_num (v : String) : (serNumericTok v).data = (ATok.num v).serc := by
  unfold serNumericTok ATok.serc
  simp only [ATok.body]
  by_cases hq : v.data.any isJsSpace = true
  · rw [if_pos hq, if_pos hq]
    simp [String.data_append]
  · rw [if_neg hq, if_neg hq]
    simp [String.data_append]

/-- Helper: one serialized named token, at the character level. -/
theorem serc_nam (p : String × String) :
    (serNamedTok p).data = (ATok.nam p.1 p.2).serc := by
  unfold serNamedTok ATok.serc
  simp only [ATok.body]
  simp [String.data_append]

/-- Helper: the serializer's two attribute folds produce the serialized
token list. -/
theorem attr_folds_data (a : Attrs) (acc : String) :
    (a.named.foldl (fun acc p => acc ++ serNamedTok p)
      (a.numeric.foldl (fun acc v => acc ++ serNumericTok v) acc)).data =
      acc.data ++ serToks (attrToks a) := by
  rw [foldl_append_data, foldl_append_data]
  unfold serToks attrToks
  rw [List.map_append, List.flatten_append]
  have h1 : a.numeric.map (fun v => (serNumericTok v).data) =
      (a.numeric.map ATok.num).map ATok.serc := by
    rw [List.map_map]
    apply List.map_congr_left
    intro v _
    exact serc_num v
  have h2 : a.named.map (fun p => (serNamedTok p).data) =
      (a.named.map (fun p => ATok.nam p.1 p.2)).map ATok.serc := by
    rw [List.map_map]
    apply List.map_congr_left
    intro p _
    exact serc_nam p
  rw [h1, h2]
  simp [List.append_assoc]

/-- Helper: the serialized form of a Closed entity, at the character
level. -/
theorem string_closed_data (t : Shortcode) (hty : t.type = some "closed") :
    (t.string).data =
      '[' :: (t.tag.data ++ (serToks (attrToks t.attrs) ++
        (']' :: ((t.content.getD "").data ++ closeSeq t.tag.data)))) := by
  unfold Shortcode.string
  rw [hty]
  rw [show ((some "closed" : Option String) == some "single") = false from rfl,
    show ((some "closed" : Option String) == some "self-closing") = false from rfl]
  simp only [Bool.false_eq_true, if_false]
  cases hc : t.content with
  | none =>
    simp only []
    rw [String.data_append, String.data_append, String.data_append,
      String.data_append, attr_folds_data]
    simp [closeSeq, String.data_append, List.append_assoc]
  | some c =>
    by_cases hce : (c == "") = true
    · have hc0 : c = "" := eq_of_beq hce
      subst hc0
      simp only [hce, if_true]
      rw [String.data_append, String.data_append, String.data_append,
        String.data_append, attr_folds_data]
      simp [closeSeq, String.data_append, List.append_assoc]
    · simp only [hce, Bool.false_eq_true, if_false]
      rw [String.data_append, String.data_append, String.data_append,
        String.data_append, String.data_append, attr_folds_data]
      simp [closeSeq, String.data_append, List.append_assoc]

/-! ## Round-trip: the matcher on a serialized Closed entity -/

/-- Helper: a list recognizes itself at the head of any extension. -/
theorem isPrefixOf_append_self (l X : List Char) : l.isPrefixOf (l ++ X) = true := by
  induction l with
  | nil => simp [List.isPrefixOf]
  | cons a l ih =>
    show (a == a && l.isPrefixOf (l ++ X)) = true
    rw [ih, beq_self_eq_true]
    rfl

/-- Helper: after the attribute region of a serialized Closed entity, the
matcher takes the closed branch and consumes everything. -/
theorem tryAfterTag_serialized (tag A C : List Char)
    (htag : ∀ x ∈ tag, wordHyChar x = true)
    (hA : ∀ x ∈ A, (x == ']') = false)
    (hAlast : A.getLast? ≠ some '/')
    (hC : hasSeq (closeSeq tag) C = false) :
    tryAfterTag tag (A ++ ']' :: (C ++ closeSeq tag)) =
      some { g3 := A, g4 := false, g5 := some C, g6 := true,
             g7 := false, rest := [] } := by
  unfold tryAfterTag
  rw [attrsScanF_exact _ A (C ++ closeSeq tag) hA hAlast
    (by simp [List.length_append]; omega)]
  have hcs : contentScan tag (C ++ closeSeq tag) = some (C, []) := by
    rw [show C ++ closeSeq tag = C ++ (closeSeq tag ++ []) from by
      rw [List.append_nil]]
    exact contentScan_exact tag htag C hC []
  show ((match contentScan tag (C ++ closeSeq tag) with
    | some (cont, r2) =>
      let g7p := g7Scan r2
      some { g3 := A, g4 := false, g5 := some cont, g6 := true,
             g7 := g7p.1, rest := g7p.2 }
    | none =>
      let g7p := g7Scan (C ++ closeSeq tag)
      some { g3 := A, g4 := false, g5 := none, g6 := false,
             g7 := g7p.1, rest := g7p.2 } : Option BodyRes)) = _
  rw [hcs]
  rfl

/-- Helper: the tag-and-lookahead part succeeds on a serialized Closed
entity's body. -/
theorem tryBody_serialized (tag A C : List Char)
    (htag : ∀ x ∈ tag, wordHyChar x = true)
    (hA : ∀ x ∈ A, (x == ']') = false)
    (hAlast : A.getLast? ≠ some '/')
    (hAhead : A = [] ∨ ∃ r, A = ' ' :: r)
    (hC : hasSeq (closeSeq tag) C = false) :
    tryBody tag (tag ++ (A ++ ']' :: (C ++ closeSeq tag))) =
      some { g3 := A, g4 := false, g5 := some C, g6 := true,
             g7 := false, rest := [] } := by
  unfold tryBody
  rw [if_pos (isPrefixOf_append_self tag (A ++ ']' :: (C ++ closeSeq tag)))]
  rw [List.drop_left]
  rcases hAhead with rfl | ⟨r, rfl⟩
  · rw [List.nil_append]
    show (if (isWordChar ']' || (']' == '-')) = true then none
      else tryAfterTag tag (']' :: (C ++ closeSeq tag))) = _
    rw [if_neg (by decide)]
    exact tryAfterTag_serialized tag [] C htag hA hAlast hC
  · rw [List.cons_append]
    show (if (isWordChar ' ' || (' ' == '-')) = true then none
      else tryAfterTag tag (' ' :: (r ++ ']' :: (C ++ closeSeq tag)))) = _
    rw [if_neg (by decide)]
    rw [← List.cons_append]
    exact tryAfterTag_serialized tag (' ' :: r) C htag hA hAlast hC

/-- Helper: the match attempt unfolded at a cons cell. -/
theorem attemptAt_cons (tag : List Char) (c0 : Char) (s1 : List Char) :
    attemptAt tag (c0 :: s1) =
      (if c0 == '[' then
        if s1.head? == some '[' then
          match tryBody tag s1.tail with
          | some b => some ⟨true, b, (c0 :: s1).length - b.rest.length⟩
          | none =>
            match tryBody tag s1 with
            | some b => some ⟨false, b, (c0 :: s1).length - b.rest.length⟩
            | none => none
        else
          match tryBody tag s1 with
          | some b => some ⟨false, b, (c0 :: s1).length - b.rest.length⟩
          | none => none
      else none) := rfl

/-- Helper: the match attempt at position 0 of a serialized Closed entity
succeeds without the escape bracket and consumes the whole text. -/
theorem attemptAt_serialized (tag A C : List Char)
    (htagne : tag ≠ []) (htag : ∀ x ∈ tag, wordHyChar x = true)
    (hA : ∀ x ∈ A, (x == ']') = false)
    (hAlast : A.getLast? ≠ some '/')
    (hAhead : A = [] ∨ ∃ r, A = ' ' :: r)
    (hC : hasSeq (closeSeq tag) C = false) :
    attemptAt tag ('[' :: (tag ++ (A ++ ']' :: (C ++ closeSeq tag)))) =
      some { g1 := false
           , body := { g3 := A, g4 := false, g5 := some C, g6 := true,
                       g7 := false, rest := [] }
           , len := ('[' :: (tag ++ (A ++ ']' :: (C ++ closeSeq tag)))).length } := by
  cases htg : tag with
  | nil => exact absurd htg htagne
  | cons t0 tT =>
    subst htg
    rw [attemptAt_cons]
    rw [if_pos (show (('[' : Char) == '[') = true from rfl)]
    rw [List.cons_append]
    rw [show ((t0 :: (tT ++ (A ++ ']' :: (C ++ closeSeq (t0 :: tT))))).head? ==
        some '[') = (t0 == '[') from rfl]
    rw [pred_beq_false (htag t0 (List.mem_cons_self t0 tT)) (by decide)]
    simp only [Bool.false_eq_true, if_false]
    rw [show t0 :: (tT ++ (A ++ ']' :: (C ++ closeSeq (t0 :: tT)))) =
      (t0 :: tT) ++ (A ++ ']' :: (C ++ closeSeq (t0 :: tT))) from rfl]
    rw [tryBody_serialized (t0 :: tT) A C htag hA hAlast hAhead hC]
    rfl

/-- Helper: the position loop finds the serialized entity at offset 0. -/
theorem scanFrom_serialized (tag A C : List Char)
    (htagne : tag ≠ []) (htag : ∀ x ∈ tag, wordHyChar x = true)
    (hA : ∀ x ∈ A, (x == ']') = false)
    (hAlast : A.getLast? ≠ some '/')
    (hAhead : A = [] ∨ ∃ r, A = ' ' :: r)
    (hC : hasSeq (closeSeq tag) C = false) :
    scanFrom tag ('[' :: (tag ++ (A ++ ']' :: (C ++ closeSeq tag)))) =
      some (0, { g1 := false
               , body := { g3 := A, g4 := false, g5 := some C, g6 := true,
                           g7 := false, rest := [] }
               , len := ('[' :: (tag ++ (A ++ ']' :: (C ++ closeSeq tag)))).length }) := by
  show (match attemptAt tag ('[' :: (tag ++ (A ++ ']' :: (C ++ closeSeq tag)))) with
    | some c => some (0, c)
    | none => (scanFrom tag (tag ++ (A ++ ']' :: (C ++ closeSeq tag)))).map
        (fun p : Nat × CoreRes => (p.1 + 1, p.2))) = _
  rw [attemptAt_serialized tag A C htagne htag hA hAlast hAhead hC]

/-- Helper: one `exec` at position 0 on a serialized Closed entity. -/
theorem regexpExec_serialized (tag A C : List Char)
    (htagne : tag ≠ []) (htag : ∀ x ∈ tag, wordHyChar x = true)
    (hA : ∀ x ∈ A, (x == ']') = false)
    (hAlast : A.getLast? ≠ some '/')
    (hAhead : A = [] ∨ ∃ r, A = ' ' :: r)
    (hC : hasSeq (closeSeq tag) C = false) :
    regexpExec tag ('[' :: (tag ++ (A ++ ']' :: (C ++ closeSeq tag)))) 0 =
      some { index := 0
           , matched := '[' :: (tag ++ (A ++ ']' :: (C ++ closeSeq tag)))
           , g1 := false, g2 := tag, g3 := A, g4 := false
           , g5 := some C, g6 := true, g7 := false
           , lastIndex := ('[' :: (tag ++ (A ++ ']' :: (C ++ closeSeq tag)))).length } := by
  unfold regexpExec
  rw [show ('[' :: (tag ++ (A ++ ']' :: (C ++ closeSeq tag)))).drop 0 =
    '[' :: (tag ++ (A ++ ']' :: (C ++ closeSeq tag))) from rfl]
  rw [scanFrom_serialized tag A C htagne htag hA hAlast hAhead hC]
  simp [List.take_length]

/-- Helper: one step of the `next` recursion. -/
theorem nextF_succ (f : Nat) (tag text : List Char) (i : Nat) :
    nextF (f + 1) tag text i =
      (match regexpExec tag text i with
      | none => none
      | some m =>
        if m.g1 && m.g7 then nextF f tag text m.lastIndex
        else
          let content := if m.g1 then m.matched.drop 1 else m.matched
          let content := if m.g7 then content.dropLast else content
          some ⟨if m.g1 then m.index + 1 else m.index, String.mk content,
            Shortcode.fromMatch m⟩) := rfl

/-- Helper: `next`'s recursion on a serialized Closed entity reports it
whole at index 0 and hands `fromMatch` the serialized attribute text and
the content. -/
theorem nextF_serialized (tagL A C : List Char) (fuel : Nat)
    (htagne : tagL ≠ []) (htagw : ∀ x ∈ tagL, wordHyChar x = true)
    (hA : ∀ x ∈ A, (x == ']') = false)
    (hAlast : A.getLast? ≠ some '/')
    (hAhead : A = [] ∨ ∃ r, A = ' ' :: r)
    (hC : hasSeq (closeSeq tagL) C = false) :
    nextF (fuel + 1) tagL ('[' :: (tagL ++ (A ++ ']' :: (C ++ closeSeq tagL)))) 0 =
      some { index := 0
           , content := String.mk ('[' :: (tagL ++ (A ++ ']' :: (C ++ closeSeq tagL))))
           , shortcode := Shortcode.ofOptions
               { tag := String.mk tagL
               , attrs := .rawStr (String.mk A)
               , type := some "closed"
               , content := some (String.mk C) } } := by
  rw [nextF_succ]
  rw [regexpExec_serialized tagL A C htagne htagw hA hAlast hAhead hC]
  rfl

/-- Helper: reconstructing from the serialized attribute text recovers
the attribute structure. -/
theorem ofOptions_rawStr_serialized (a : Attrs) (tg : String)
    (ty : Option String) (co : Option String)
    (hkeys : ∀ p ∈ a.named, validNamedKey p.1 = true)
    (hvals : ∀ p ∈ a.named, validNamedVal p.2 = true)
    (hnodup : (a.named.map Prod.fst).Nodup)
    (hnum : ∀ v ∈ a.numeric, validNumericVal v = true) :
    Shortcode.ofOptions
      { tag := tg
      , attrs := .rawStr (String.mk (serToks (attrToks a)))
      , type := ty, content := co } =
      { tag := tg, attrs := a, type := ty, content := co } := by
  show (if String.mk (serToks (attrToks a)) == "" then
      ({ tag := tg, attrs := ⟨[], []⟩, type := ty, content := co } : Shortcode)
    else { tag := tg, attrs := parseAttrs (String.mk (serToks (attrToks a)))
         , type := ty, content := co }) =
    { tag := tg, attrs := a, type := ty, content := co }
  cases hts : attrToks a with
  | nil =>
    rw [if_pos (show (String.mk (serToks ([] : List ATok)) == "") = true from rfl)]
    unfold attrToks at hts
    rcases List.append_eq_nil.mp hts with ⟨h1, h2⟩
    cases a with
    | mk nf uf =>
      simp only [List.map_eq_nil_iff] at h1 h2
      rw [h1, h2]
  | cons u us =>
    have hne : serToks (u :: us) ≠ [] := by
      rw [serToks_cons]
      simp
    have hbeq : (String.mk (serToks (u :: us)) == "") = false := by
      cases hb : (String.mk (serToks (u :: us)) == "") with
      | false => rfl
      | true =>
        have hs := eq_of_beq hb
        have hd := congrArg String.data hs
        exact absurd hd hne
    rw [hbeq]
    simp only [Bool.false_eq_true, if_false]
    rw [← hts, parse_serialized_attrs a hkeys hvals hnodup hnum]

/-- Helper: serialization does not distinguish absent content from empty
content. -/
theorem string_content_empty (tg : String) (a : Attrs) (ty : Option String) :
    Shortcode.string { tag := tg, attrs := a, type := ty, content := some "" } =
      Shortcode.string { tag := tg, attrs := a, type := ty, content := none } := rfl

/-- C6 (amended): the round trip holds for well-formed Closed entities.
For every Tag Entity `t` with `type = closed` whose tag is a non-empty
`[\w-]+` token, whose named attributes have non-empty lower-case word
keys (no duplicates) and values free of `"`, `]` and the two
space-normalized characters, whose positional attributes are non-empty,
of the same clean characters, not ending in `/`, and free of `=` when
serialized unquoted, and whose content does not contain the closing
sequence `[/tag]`: parsing the serialization of `t` and re-serializing
yields the serialization of `t` unchanged. -/
theorem c6_round_trip (t : Shortcode)
    (hty : t.type = some "closed")
    (htag : validTagName t.tag = true)
    (hkeys : ∀ p ∈ t.attrs.named, validNamedKey p.1 = true)
    (hvals : ∀ p ∈ t.attrs.named, validNamedVal p.2 = true)
    (hnodup : (t.attrs.named.map Prod.fst).Nodup)
    (hnum : ∀ v ∈ t.attrs.numeric, validNumericVal v = true)
    (hcontent : hasSeq (closeSeq t.tag.data) ((t.content.getD "").data) = false) :
    (Shortcode.next t.tag t.string 0).map (fun r => r.shortcode.string) =
      some t.string := by
  obtain ⟨htagne, htagw⟩ := validTagName_parts htag
  have hvalid := attrToks_valid t.attrs hkeys hvals hnum
  have hdata := string_closed_data t hty
  unfold Shortcode.next
  rw [hdata]
  rw [nextF_serialized t.tag.data (serToks (attrToks t.attrs))
    ((t.content.getD "").data) (Shortcode.string t).length htagne htagw
    (serToks_no_rb _ hvalid) (serToks_getLast _ hvalid)
    (serToks_shape _) hcontent]
  rw [ofOptions_rawStr_serialized t.attrs (String.mk t.tag.data) (some "closed")
    (some (String.mk ((t.content.getD "").data))) hkeys hvals hnodup hnum]
  cases hc : t.content with
  | some c =>
    show some (Shortcode.string
      { tag := t.tag, attrs := t.attrs, type := some "closed",
        content := some c }) = some t.string
    have ht : ({ tag := t.tag, attrs := t.attrs, type := some "closed"
               , content := some c } : Shortcode) = t := by
      rw [← hty, ← hc]
    rw [ht]
  | none =>
    show some (Shortcode.string
      { tag := t.tag, attrs := t.attrs, type := some "closed",
        content := some "" }) = some t.string
    rw [string_content_empty]
    have ht : ({ tag := t.tag, attrs := t.attrs, type := some "closed"
               , content := none } : Shortcode) = t := by
      rw [← hty, ← hc]
    rw [ht]

/-- Witness: the round trip at a concrete well-formed Closed entity with
a quoted and an unquoted positional value, a named entry, and content
containing a non-closing bracket. -/
theorem c6_witness :
    c6wit.type = some "closed" ∧ validTagName c6wit.tag = true ∧
    (Shortcode.next c6wit.tag c6wit.string 0).map (fun r => r.shortcode.string) =
      some c6wit.string :=
  ⟨rfl, by decide, c6_round_trip c6wit rfl (by decide) (by decide) (by decide)
    (by decide) (by decide) (by decide)⟩

end WPSC
